import Mathlib

/-!
Verification of the Petri-net analysis programs (pnml_parser.py, reachability.py,
symbolic_bdd.py, deadlock_detection.py, optimization.py).

Shallow embedding conventions:
* Python dataclasses `Place`, `Transition`, `Arc` and the `PetriNet` container are
  mirrored as Lean structures.  Python dicts keyed by id become Lean lists in
  insertion order; dict lookup (last write wins) is `dictGetPlace`.
* The textual Boolean expressions fed to `dd.bdd.BDD.add_expr` are mirrored as the
  `BExpr` AST with variables of type `BVar`: the current-state variable named
  `p_id` is `BVar.cur p_id` and the primed variable named `p_id ++ "_p"` is
  `BVar.nxt p_id`.  The Python `" & ".join` / `" | ".join` of a list of
  sub-expressions is `joinAnd` / `joinOr`; joining an empty list of parts yields
  the empty string, which the expression parser of the `dd` library rejects, so
  the join is `Option`-valued with `none` for the empty list.
* The `dd` BDD manager keeps formulas canonical: node equality coincides with
  semantic equality over the declared variables.  Formulas built only over the
  current-state variables are therefore modelled by their denotation, a
  `Finset (Finset String)` of satisfying assignments (a marking is the
  `Finset String` of places holding a token); `apply 'and'/'or'`, `exist`,
  `rename` and `count` are modelled by the corresponding exact set operations.
* The binary integer programs solved through `pulp` with CBC are modelled by an
  exact deterministic solver over an explicit enumeration of all 0/1 assignments
  (`solveILP`), maximizing the objective and breaking ties by enumeration order,
  as the deterministic-solver contract of the design requires.
* `parse_pnml` works on the stream of XML elements; the stream is mirrored by a
  list of `PElem`, where the text of an `initialMarking` child is abstracted to
  `Option Int` (`none` when `int(text)` raises `ValueError`).
-/

namespace PetriSpec

/-- Mirrors the `Place` dataclass of pnml_parser.py (Python `int` is `Int`). -/
structure Place where
  id : String
  pname : Option String
  initial_marking : Int
deriving DecidableEq

/-- Mirrors the `Transition` dataclass of pnml_parser.py. -/
structure Transition where
  id : String
  tname : Option String
deriving DecidableEq

/-- Mirrors the `Arc` dataclass of pnml_parser.py. -/
structure Arc where
  id : String
  source : String
  target : String
deriving DecidableEq

/-- Mirrors the `PetriNet` container of pnml_parser.py: `places` and
`transitions` are dicts keyed by id, kept here as lists in insertion order,
`arcs` is a list. -/
structure PetriNet where
  places : List Place
  transitions : List Transition
  arcs : List Arc
deriving DecidableEq

def PetriNet.placeIds (net : PetriNet) : List String := net.places.map Place.id

def PetriNet.transIds (net : PetriNet) : List String := net.transitions.map Transition.id

/-- Lookup `net.places[p]` with Python-dict semantics (the last binding for a
repeated key wins; for nets with unique ids this is plain lookup). -/
def dictGetPlace (net : PetriNet) (p : String) : Option Place :=
  net.places.reverse.find? (fun pl => pl.id == p)

/-- Lexicographic comparison of strings by Unicode code point, as Python's
`sorted` uses on `str`. -/
def lexLe : List Char → List Char → Bool
  | [], _ => true
  | _ :: _, [] => false
  | a :: as_, b :: bs => if a.toNat < b.toNat then true
      else if b.toNat < a.toNat then false else lexLe as_ bs

def strLe (a b : String) : Bool := lexLe a.data b.data

def insertSorted (x : String) : List String → List String
  | [] => [x]
  | y :: ys => if strLe x y then x :: y :: ys else y :: insertSorted x ys

/-- Stable insertion sort, modelling Python's `sorted` on the place ids. -/
def sortStrings : List String → List String
  | [] => []
  | x :: xs => insertSorted x (sortStrings xs)

/-- `self.sorted_places` / `self.vars` of the three solver classes:
`sorted(net.places.keys())`. -/
def vars (net : PetriNet) : List String := sortStrings net.placeIds

def placeFinset (net : PetriNet) : Finset String := net.placeIds.toFinset

/-- Preset of transition `t`, as every solver builds it from the arcs:
sources of arcs `place -> t` whose endpoints exist (`arc.source in net.places
and arc.target in net.transitions`).  The Python value is a `set`; the list is
deduplicated so that its length is the set's size. -/
def presetL (net : PetriNet) (t : String) : List String :=
  (((net.arcs.filter (fun a =>
      net.placeIds.contains a.source && net.transIds.contains a.target
        && a.target == t))).map Arc.source).dedup

/-- Postset of transition `t`: targets of arcs `t -> place` whose endpoints
exist. -/
def postsetL (net : PetriNet) (t : String) : List String :=
  (((net.arcs.filter (fun a =>
      net.transIds.contains a.source && net.placeIds.contains a.target
        && a.source == t))).map Arc.target).dedup

def presetF (net : PetriNet) (t : String) : Finset String := (presetL net t).toFinset

def postsetF (net : PetriNet) (t : String) : Finset String := (postsetL net t).toFinset

/-- The initial marking as reachability.py derives it:
`{p.id for p in net.places.values() if p.initial_marking > 0}`. -/
def bfsInit (net : PetriNet) : Finset String :=
  ((net.places.filter (fun pl => 0 < pl.initial_marking)).map Place.id).toFinset

/-- Whether place `p` is initially marked, as the symbolic solvers test it:
`self.net.places[p_id].initial_marking > 0`. -/
def markedInit (net : PetriNet) (p : String) : Bool :=
  match dictGetPlace net p with
  | some pl => decide (0 < pl.initial_marking)
  | none => false

/-- Firing transition `t` at marking `m`: `(m \ Preset(t)) ∪ Postset(t)`. -/
def fire (net : PetriNet) (m : Finset String) (t : String) : Finset String :=
  (m \ presetF net t) ∪ postsetF net t

/-- One firing step between markings. -/
def stepRel (net : PetriNet) (m m' : Finset String) : Prop :=
  ∃ t ∈ net.transIds, presetF net t ⊆ m ∧ m' = fire net m t

/-- `m` is reachable from the initial marking by firing transitions. -/
def Reaches (net : PetriNet) (m : Finset String) : Prop :=
  Relation.ReflTransGen (stepRel net) (bfsInit net) m

/-- Variables of the textual BDD expressions: the current-state variable
`p_id` and the next-state variable `p_id ++ "_p"`. -/
inductive BVar where
  | cur (p : String)
  | nxt (p : String)
deriving DecidableEq

/-- AST of the textual Boolean expressions handed to `bdd.add_expr`
(`!` is `neg`, `&` is `conj`, `|` is `disj`). -/
inductive BExpr where
  | var (v : BVar)
  | neg (e : BExpr)
  | conj (a b : BExpr)
  | disj (a b : BExpr)
deriving DecidableEq

def evalB (a : BVar → Bool) : BExpr → Bool
  | .var v => a v
  | .neg e => !(evalB a e)
  | .conj x y => evalB a x && evalB a y
  | .disj x y => evalB a x || evalB a y

/-- `" & ".join(parts)`: the empty join is the empty string, rejected by the
expression parser, hence `none`. -/
def joinAnd : List BExpr → Option BExpr
  | [] => none
  | e :: es => some (es.foldl BExpr.conj e)

/-- `" | ".join(parts)`, `none` on the empty list. -/
def joinOr : List BExpr → Option BExpr
  | [] => none
  | e :: es => some (es.foldl BExpr.disj e)

/-- Assignment over current and next variables given by a pair of markings. -/
def assignPair (m mn : Finset String) : BVar → Bool
  | .cur p => decide (p ∈ m)
  | .nxt p => decide (p ∈ mn)

/-- The literal list of `build_initial_marking_expr`: for each `p_id` in
`self.vars`, the variable if initially marked, else its negation. -/
def initParts (net : PetriNet) : List BExpr :=
  (vars net).map (fun p =>
    if markedInit net p then BExpr.var (BVar.cur p) else BExpr.neg (BExpr.var (BVar.cur p)))

/-- `build_initial_marking_expr` of symbolic_bdd.py (and the identical methods
of deadlock_detection.py and optimization.py). -/
def buildInitExpr (net : PetriNet) : Option BExpr := joinAnd (initParts net)

/-- The per-place next-state constraint of `build_transition_relation_expr`:
consumed-only places get `!p'`, produced places get `p'`, untouched places get
the frame clause `((p & p') | (!p & !p'))`. -/
def framePart (net : PetriNet) (t p : String) : BExpr :=
  if p ∈ presetF net t ∧ p ∉ postsetF net t then BExpr.neg (BExpr.var (BVar.nxt p))
  else if p ∈ postsetF net t ∧ p ∉ presetF net t then BExpr.var (BVar.nxt p)
  else if p ∈ presetF net t ∧ p ∈ postsetF net t then BExpr.var (BVar.nxt p)
  else BExpr.disj
    (BExpr.conj (BExpr.var (BVar.cur p)) (BExpr.var (BVar.nxt p)))
    (BExpr.conj (BExpr.neg (BExpr.var (BVar.cur p))) (BExpr.neg (BExpr.var (BVar.nxt p))))

/-- The conjunct list of one transition's disjunct: the enabling literals over
`Preset(t)` followed by one frame part per place of `self.vars`. -/
def transParts (net : PetriNet) (t : String) : List BExpr :=
  (presetL net t).map (fun p => BExpr.var (BVar.cur p)) ++ (vars net).map (framePart net t)

def buildTransList (net : PetriNet) : List String → Option (List BExpr)
  | [] => some []
  | t :: ts =>
    match joinAnd (transParts net t), buildTransList net ts with
    | some e, some es => some (e :: es)
    | _, _ => none

/-- `build_transition_relation_expr`: the disjunction over all transitions of
their conjunct lists. -/
def buildTransExpr (net : PetriNet) : Option BExpr :=
  (buildTransList net net.transIds).bind joinOr

/-- All assignments over the current-state variable set: markings that are
subsets of the declared places. -/
def markingSpace (net : PetriNet) : Finset (Finset String) :=
  (placeFinset net).powerset

/-- Denotation of a formula over the current-state variables: its satisfying
assignments. -/
def denoteCur (net : PetriNet) (e : BExpr) : Finset (Finset String) :=
  (markingSpace net).filter (fun m => evalB (assignPair m ∅) e = true)

/-- Denotation of `rename(exist(cur_vars, R ∧ T))`: the markings `mn` such that
some `m` satisfying `R` makes `(m, mn)` satisfy the transition relation. -/
def bddImage (net : PetriNet) (tE : BExpr) (R : Finset (Finset String)) :
    Finset (Finset String) :=
  (markingSpace net).filter (fun mn => ∃ m ∈ R, evalB (assignPair m mn) tE = true)

/-- The `while True` fixed-point loop of `compute_reachable`: repeatedly form
`R_new = R ∨ image(R)`, stop when `R_new == R` (canonical BDD equality =
denotation equality), counting iterations.  `fuel` bounds the recursion; the
loop is proved below to break strictly before any sufficient fuel runs out. -/
def reachLoop (f : Finset (Finset String) → Finset (Finset String)) :
    Nat → Finset (Finset String) → Finset (Finset String) × Nat
  | 0, R => (R, 0)
  | fuel + 1, R =>
    let Rn := f R
    if Rn = R then (R, 1)
    else
      let pr := reachLoop f fuel Rn
      (pr.1, pr.2 + 1)

inductive SymErr where
  | emptyExpr
deriving DecidableEq

/-- `BDDSolver.compute_reachable` of symbolic_bdd.py (the iteration loop of
`HybridSolver.compute_reachable_set` is identical): build the initial-marking
and transition-relation expressions (an empty textual expression makes
`add_expr` raise), then iterate to the fixed point, returning the reachable-set
formula's denotation and the number of loop iterations executed. -/
def computeReachable (net : PetriNet) :
    Except SymErr (Finset (Finset String) × Nat) :=
  match buildInitExpr net with
  | none => .error .emptyExpr
  | some e0 =>
    match buildTransExpr net with
    | none => .error .emptyExpr
    | some tE =>
      .ok (reachLoop (fun R => R ∪ bddImage net tE R)
        (2 ^ net.placeIds.length) (denoteCur net e0))

/-- `count(reachable_set)` over the current-state variable set:
`self.bdd.count(R_curr, nvars=len(self.vars))`. -/
def countSat (R : Finset (Finset String)) : Nat := R.card

/-- The inner transition scan of `find_reachable_markings_bfs`: for each
transition in dict order, if `pre_set.issubset(current_marking)` and the fired
marking is new, add it to `visited` and append it to the queue. -/
def bfsExpand (net : PetriNet) (m : Finset String) :
    List String → Finset (Finset String) × List (Finset String) →
      Finset (Finset String) × List (Finset String)
  | [], vq => vq
  | t :: ts, (v, q) =>
    if presetF net t ⊆ m then
      let nx := fire net m t
      if nx ∈ v then bfsExpand net m ts (v, q)
      else bfsExpand net m ts (insert nx v, q ++ [nx])
    else bfsExpand net m ts (v, q)

/-- The `while queue` loop of `find_reachable_markings_bfs`.  `fuel` bounds the
number of pops; `none` marks fuel exhaustion, which sufficient fuel (proved
below) rules out. -/
def bfsAux (net : PetriNet) :
    Nat → Finset (Finset String) → List (Finset String) →
      Option (Finset (Finset String))
  | _, v, [] => some v
  | 0, _, _ :: _ => none
  | fuel + 1, v, m :: rest =>
    let vq := bfsExpand net m net.transIds (v, [])
    bfsAux net fuel vq.1 (rest ++ vq.2)

/-- `find_reachable_markings_bfs` applied to `convert_net_to_bfs_format`'s
output: breadth-first enumeration of the reachable markings starting from the
initial marking. -/
def bfsRun (net : PetriNet) : Option (Finset (Finset String)) :=
  bfsAux net (2 * 2 ^ net.placeIds.length + 1) {bfsInit net} [bfsInit net]

/-- All 0/1 assignments over a list of decision variables — the search space of
the binary integer programs (one binary variable per place). -/
def allSubsets : List String → List (Finset String)
  | [] => [∅]
  | p :: ps => allSubsets ps ++ (allSubsets ps).map (insert p)

/-- Deterministic choice of an objective-maximal element, ties broken in favor
of the earliest listed candidate. -/
def pickMax (f : Finset String → Int) : List (Finset String) → Option (Finset String)
  | [] => none
  | x :: xs =>
    match pickMax f xs with
    | none => some x
    | some y => if f y ≤ f x then some x else some y

/-- Model of `prob.solve(...)` for a binary program: return an optimal feasible
assignment, or `none` when the constraints are infeasible. -/
def solveILP (cands : List (Finset String)) (feas : Finset String → Bool)
    (f : Finset String → Int) : Option (Finset String) :=
  pickMax f (cands.filter feas)

/-- `pulp.lpSum` of the variables listed in `l` under assignment `m`. -/
def indSum (l : List String) (m : Finset String) : Int :=
  (l.map (fun p => if p ∈ m then (1 : Int) else 0)).sum

/-- The structural constraint `lpSum([x_p for p in pre]) <= len(pre) - 1`
added by `find_deadlock` for each transition with a non-empty preset. -/
def disableOk (net : PetriNet) (t : String) (m : Finset String) : Prop :=
  indSum (presetL net t) m ≤ (presetL net t).length - 1

/-- The no-good cut `lpSum(ones) - lpSum(zeros) <= len(ones) - 1` built from a
rejected candidate `a` over the variable list `varsL`. -/
def cutOk (varsL : List String) (a m : Finset String) : Prop :=
  indSum (varsL.filter (fun p => p ∈ a)) m
      - indSum (varsL.filter (fun p => p ∉ a)) m
    ≤ ((varsL.filter (fun p => p ∈ a)).length : Int) - 1

instance decDisableOk (net : PetriNet) (t : String) (m : Finset String) :
    Decidable (disableOk net t m) :=
  inferInstanceAs (Decidable (_ ≤ _))

instance decCutOk (varsL : List String) (a m : Finset String) :
    Decidable (cutOk varsL a m) :=
  inferInstanceAs (Decidable (_ ≤ _))

/-- Feasibility in the deadlock search: every transition with a non-empty
preset is disabled, and every accumulated cut is satisfied. -/
def deadFeas (net : PetriNet) (exc : List (Finset String)) (m : Finset String) : Bool :=
  net.transIds.all (fun t =>
      decide (presetL net t = []) || decide (disableOk net t m)) &&
    exc.all (fun a => decide (cutOk (vars net) a m))

/-- The refinement loop of `HybridSolver.find_deadlock`: solve the binary
program (objective: maximize the token count), return `some none` on
infeasibility ("no dead marking exists"), return the candidate if it intersects
the reachable set, otherwise add its no-good cut and retry.  The outer `none`
marks fuel exhaustion. -/
def findDeadlockAux (net : PetriNet) (R : Finset (Finset String)) :
    Nat → List (Finset String) → Option (Option (Finset String))
  | 0, _ => none
  | fuel + 1, exc =>
    match solveILP (allSubsets (vars net)) (deadFeas net exc)
        (fun m => indSum net.placeIds m) with
    | none => some none
    | some c =>
      if c ∈ R then some (some c)
      else findDeadlockAux net R fuel (exc ++ [c])

/-- `HybridSolver.find_deadlock`: compute the reachable set (lazily) and run
the refinement loop with no cuts. -/
def findDeadlock (net : PetriNet) : Option (Option (Finset String)) :=
  match computeReachable net with
  | .error _ => none
  | .ok pr => findDeadlockAux net pr.1 (2 ^ net.placeIds.length + 1) []

/-- The objective of `optimize_marking`: `sum(weights.get(p_id, 0) * x[p_id])`
over the places of the net; weight keys that are not place ids are never read. -/
def objW (net : PetriNet) (weights : List (String × Int)) (m : Finset String) : Int :=
  (net.placeIds.map (fun p =>
    ((weights.lookup p).getD 0) * (if p ∈ m then (1 : Int) else 0))).sum

/-- Feasibility in the optimization search: only the accumulated cuts. -/
def optFeas (net : PetriNet) (exc : List (Finset String)) (m : Finset String) : Bool :=
  exc.all (fun a => decide (cutOk (vars net) a m))

/-- The refinement loop of `OptimizationSolver.optimize_marking`, additionally
recording the sequence of candidates with their objective values.  `some ([],
none)` is the infeasible outcome (`return None`); the outer `none` marks fuel
exhaustion. -/
def optimizeAux (net : PetriNet) (R : Finset (Finset String))
    (weights : List (String × Int)) :
    Nat → List (Finset String) →
      Option (List (Finset String × Int) × Option (Finset String))
  | 0, _ => none
  | fuel + 1, exc =>
    match solveILP (allSubsets (vars net)) (optFeas net exc) (objW net weights) with
    | none => some ([], none)
    | some c =>
      if c ∈ R then some ([(c, objW net weights c)], some c)
      else
        match optimizeAux net R weights fuel (exc ++ [c]) with
        | none => none
        | some pr => some ((c, objW net weights c) :: pr.1, pr.2)

/-- `OptimizationSolver.optimize_marking`: compute the reachable set (lazily)
and run the refinement loop with no cuts. -/
def optimizeMarking (net : PetriNet) (weights : List (String × Int)) :
    Option (List (Finset String × Int) × Option (Finset String)) :=
  match computeReachable net with
  | .error _ => none
  | .ok pr => optimizeAux net pr.1 weights (2 ^ net.placeIds.length + 1) []

/-- An XML element of a PNML document as `parse_pnml` consumes the stream:
attributes may be missing (`none`); the text of an `initialMarking` child is
already abstracted to its `int(..)` parse, `some none` standing for text that
is not an integer. -/
inductive PElem where
  | place (id : Option String) (pname : Option String) (marking : Option (Option Int))
  | transition (id : Option String) (tname : Option String)
  | arc (id source target : Option String)
deriving DecidableEq

/-- The structural errors collected by `PetriNet.validate`. -/
inductive ValErr where
  | noPlaces
  | noTransitions
  | dupNodeId (id : String)
  | danglingSource (arcId nodeId : String)
  | danglingTarget (arcId nodeId : String)
  | sameTypeArc (arcId : String)
deriving DecidableEq

/-- The exceptions `parse_pnml` can raise: the fail-fast ones thrown while
scanning elements, and the aggregated `validate` report. -/
inductive ParseErr where
  | missingPlaceId
  | duplicatePlaceId (id : String)
  | badMarking (id : String)
  | missingTransitionId
  | duplicateTransitionId (id : String)
  | missingArcAttr
  | invalidNet (errs : List ValErr)
deriving DecidableEq

/-- The duplicate-id scan of `PetriNet.validate`'s `node_types` loops: walk the
ids, reporting each one already seen. -/
def dupErrs : List String → List String → List ValErr
  | _, [] => []
  | seen, x :: xs =>
    (if x ∈ seen then [ValErr.dupNodeId x] else []) ++ dupErrs (x :: seen) xs

/-- The final state of the `node_types` dict: transitions are written after
places, so a shared id reads as "transition"; `some true` is "transition",
`some false` is "place". -/
def nodeType (net : PetriNet) (v : String) : Option Bool :=
  if v ∈ net.transIds then some true
  else if v ∈ net.placeIds then some false
  else none

/-- The per-arc checks of `PetriNet.validate`, in source order: dangling
source, dangling target, same-type endpoints. -/
def arcErrs (net : PetriNet) (a : Arc) : List ValErr :=
  (match nodeType net a.source with
    | none => [ValErr.danglingSource a.id a.source]
    | some _ => []) ++
  (match nodeType net a.target with
    | none => [ValErr.danglingTarget a.id a.target]
    | some _ => []) ++
  (match nodeType net a.source, nodeType net a.target with
    | some s, some t => if s = t then [ValErr.sameTypeArc a.id] else []
    | _, _ => [])

/-- `PetriNet.validate`: collect all structural errors into one list. -/
def netValidate (net : PetriNet) : List ValErr :=
  (if net.places = [] then [ValErr.noPlaces] else []) ++
  (if net.transitions = [] then [ValErr.noTransitions] else []) ++
  dupErrs [] net.placeIds ++
  dupErrs net.placeIds net.transIds ++
  net.arcs.foldr (fun a acc => arcErrs net a ++ acc) []

/-- The element scan of `parse_pnml`: build the places dict, transitions dict
and arc list, raising fail-fast errors exactly where the source does, then
validate the assembled net and either report the aggregated error list or
return the net. -/
def parseElems : List PElem → List Place → List Transition → List Arc →
    Except ParseErr PetriNet
  | [], ps, ts, ars =>
    let net : PetriNet := ⟨ps, ts, ars⟩
    if netValidate net = [] then .ok net else .error (.invalidNet (netValidate net))
  | PElem.place pid pnm pmk :: rest, ps, ts, ars =>
    match pid with
    | none => .error .missingPlaceId
    | some i =>
      if i ∈ ps.map Place.id then .error (.duplicatePlaceId i)
      else
        match pmk with
        | none => parseElems rest (ps ++ [⟨i, pnm, 0⟩]) ts ars
        | some none => .error (.badMarking i)
        | some (some k) => parseElems rest (ps ++ [⟨i, pnm, k⟩]) ts ars
  | PElem.transition tid tnm :: rest, ps, ts, ars =>
    match tid with
    | none => .error .missingTransitionId
    | some i =>
      if i ∈ ts.map Transition.id then .error (.duplicateTransitionId i)
      else parseElems rest ps (ts ++ [⟨i, tnm⟩]) ars
  | PElem.arc aid src tgt :: rest, ps, ts, ars =>
    match aid, src, tgt with
    | some i, some s, some t => parseElems rest ps ts (ars ++ [⟨i, s, t⟩])
    | _, _, _ => .error .missingArcAttr

/-- `parse_pnml` on an element stream. -/
def parsePnml (elems : List PElem) : Except ParseErr PetriNet :=
  parseElems elems [] [] []

/-- A net as the engines receive it from the parser: `validate` found nothing
to report. -/
def ValidNet (net : PetriNet) : Prop := netValidate net = []

instance decEqExcept {e a : Type} [DecidableEq e] [DecidableEq a] :
    DecidableEq (Except e a) := fun x y =>
  match x, y with
  | .error u, .error v => decidable_of_iff (u = v) (by simp)
  | .ok u, .ok v => decidable_of_iff (u = v) (by simp)
  | .error _, .ok _ => isFalse (by simp)
  | .ok _, .error _ => isFalse (by simp)

instance decValidNet (net : PetriNet) : Decidable (ValidNet net) :=
  inferInstanceAs (Decidable (_ = _))

/-! ### Sorting and variable order -/

theorem insertSorted_perm (x : String) (l : List String) :
    (insertSorted x l).Perm (x :: l) := by
  induction l with
  | nil => simp [insertSorted]
  | cons y ys ih =>
    by_cases h : strLe x y = true
    · simp [insertSorted, h]
    · simp only [insertSorted, h, if_false]
      exact (ih.cons y).trans (List.Perm.swap x y ys)

theorem sortStrings_perm (l : List String) : (sortStrings l).Perm l := by
  induction l with
  | nil => simp [sortStrings]
  | cons x xs ih =>
    exact (insertSorted_perm x (sortStrings xs)).trans (ih.cons x)

theorem mem_vars {net : PetriNet} {p : String} :
    p ∈ vars net ↔ p ∈ net.placeIds :=
  (sortStrings_perm net.placeIds).mem_iff

theorem vars_nodup {net : PetriNet} (h : net.placeIds.Nodup) : (vars net).Nodup :=
  (sortStrings_perm net.placeIds).nodup_iff.mpr h

theorem vars_toFinset (net : PetriNet) : (vars net).toFinset = placeFinset net := by
  ext p
  simp [mem_vars, placeFinset]

theorem vars_eq_nil_iff {net : PetriNet} : vars net = [] ↔ net.placeIds = [] := by
  unfold vars
  constructor
  · intro h
    have hp := sortStrings_perm net.placeIds
    rw [h] at hp
    exact hp.symm.eq_nil
  · intro h
    rw [h]
    rfl

/-! ### Evaluation of the joined expressions -/

theorem evalB_foldl_conj (a : BVar → Bool) (es : List BExpr) (e : BExpr) :
    evalB a (es.foldl BExpr.conj e) = (evalB a e && es.all (fun x => evalB a x)) := by
  induction es generalizing e with
  | nil => simp
  | cons x xs ih => simp [ih, evalB, Bool.and_assoc]

theorem evalB_foldl_disj (a : BVar → Bool) (es : List BExpr) (e : BExpr) :
    evalB a (es.foldl BExpr.disj e) = (evalB a e || es.any (fun x => evalB a x)) := by
  induction es generalizing e with
  | nil => simp
  | cons x xs ih => simp [ih, evalB, Bool.or_assoc]

theorem joinAnd_eval {l : List BExpr} {e : BExpr} (h : joinAnd l = some e)
    (a : BVar → Bool) : (evalB a e = true ↔ ∀ x ∈ l, evalB a x = true) := by
  cases l with
  | nil => simp [joinAnd] at h
  | cons x xs =>
    simp only [joinAnd, Option.some.injEq] at h
    subst h
    simp [evalB_foldl_conj, List.all_eq_true]

theorem joinOr_eval {l : List BExpr} {e : BExpr} (h : joinOr l = some e)
    (a : BVar → Bool) : (evalB a e = true ↔ ∃ x ∈ l, evalB a x = true) := by
  cases l with
  | nil => simp [joinOr] at h
  | cons x xs =>
    simp only [joinOr, Option.some.injEq] at h
    subst h
    simp [evalB_foldl_disj, List.any_eq_true]

theorem joinAnd_isSome {l : List BExpr} (h : l ≠ []) : ∃ e, joinAnd l = some e := by
  cases l with
  | nil => exact absurd rfl h
  | cons x xs => exact ⟨_, rfl⟩

theorem buildInitExpr_eval {net : PetriNet} {e : BExpr} (h : buildInitExpr net = some e)
    (m mn : Finset String) :
    (evalB (assignPair m mn) e = true ↔
      ∀ p ∈ vars net, (p ∈ m ↔ markedInit net p = true)) := by
  rw [joinAnd_eval h]
  unfold initParts
  constructor
  · intro hall p hp
    have := hall _ (List.mem_map_of_mem _ hp)
    by_cases hm : markedInit net p = true
    · simp [hm, evalB, assignPair] at this
      simp [hm, this]
    · simp [hm, evalB, assignPair] at this
      simp [hm, this]
  · intro hall x hx
    rcases List.mem_map.mp hx with ⟨p, hp, rfl⟩
    have := hall p hp
    by_cases hm : markedInit net p = true
    · simp [hm, evalB, assignPair, this]
    · simp [hm] at this
      simp [hm, evalB, assignPair, this]

/-! ### The initial-marking formula -/

/-- The marking denoted by the initial-marking expression: the places whose
dict entry has a positive token count. -/
def symInit (net : PetriNet) : Finset String :=
  (placeFinset net).filter (fun p => markedInit net p = true)

theorem mem_placeFinset_iff_vars {net : PetriNet} {p : String} :
    p ∈ placeFinset net ↔ p ∈ vars net := by
  rw [mem_vars]
  simp [placeFinset]

theorem denoteCur_init {net : PetriNet} {e : BExpr} (h : buildInitExpr net = some e) :
    denoteCur net e = {symInit net} := by
  ext m
  simp only [denoteCur, Finset.mem_filter, markingSpace, Finset.mem_powerset,
    Finset.mem_singleton]
  rw [buildInitExpr_eval h]
  constructor
  · rintro ⟨hsub, hall⟩
    ext p
    simp only [symInit, Finset.mem_filter]
    constructor
    · intro hpm
      have hpf : p ∈ placeFinset net := hsub hpm
      exact ⟨hpf, (hall p (mem_placeFinset_iff_vars.mp hpf)).mp hpm⟩
    · rintro ⟨hpf, hmk⟩
      exact (hall p (mem_placeFinset_iff_vars.mp hpf)).mpr hmk
  · rintro rfl
    refine ⟨Finset.filter_subset _ _, ?_⟩
    intro p hp
    have hpf : p ∈ placeFinset net := mem_placeFinset_iff_vars.mpr hp
    simp [symInit, hpf]

theorem dictGetPlace_eq {net : PetriNet} (h : net.placeIds.Nodup) {pl : Place}
    (hmem : pl ∈ net.places) : dictGetPlace net pl.id = some pl := by
  unfold dictGetPlace
  have hs : (net.places.reverse.find? (fun q => q.id == pl.id)).isSome := by
    rw [List.find?_isSome]
    exact ⟨pl, List.mem_reverse.mpr hmem, by simp⟩
  rcases Option.isSome_iff_exists.mp hs with ⟨q, hq⟩
  have hqmem : q ∈ net.places := List.mem_reverse.mp (List.mem_of_find?_eq_some hq)
  have hqid : q.id = pl.id := by simpa using List.find?_some hq
  have : q = pl := List.inj_on_of_nodup_map h hqmem hmem hqid
  rw [hq, this]

theorem markedInit_iff {net : PetriNet} (h : net.placeIds.Nodup) (p : String) :
    markedInit net p = true ↔
      ∃ pl ∈ net.places, pl.id = p ∧ 0 < pl.initial_marking := by
  unfold markedInit
  cases hf : dictGetPlace net p with
  | none =>
    unfold dictGetPlace at hf
    rw [List.find?_eq_none] at hf
    simp only [Bool.false_eq_true, false_iff]
    rintro ⟨pl, hmem, hid, _⟩
    exact hf pl (List.mem_reverse.mpr hmem) (by simp [hid])
  | some pl =>
    have hmem : pl ∈ net.places :=
      List.mem_reverse.mp (List.mem_of_find?_eq_some hf)
    have hid : pl.id = p := by simpa using List.find?_some hf
    simp only [decide_eq_true_eq]
    constructor
    · intro hpos
      exact ⟨pl, hmem, hid, hpos⟩
    · rintro ⟨pl', hmem', hid', hpos'⟩
      have : pl' = pl := List.inj_on_of_nodup_map h hmem' hmem (by rw [hid, hid'])
      rw [← this]
      exact hpos'

theorem symInit_eq_bfsInit {net : PetriNet} (h : net.placeIds.Nodup) :
    symInit net = bfsInit net := by
  ext p
  simp only [symInit, Finset.mem_filter, bfsInit, List.mem_toFinset, List.mem_map,
    List.mem_filter, markedInit_iff h]
  constructor
  · rintro ⟨-, pl, hmem, hid, hpos⟩
    exact ⟨pl, ⟨hmem, by simpa using hpos⟩, hid⟩
  · rintro ⟨pl, ⟨hmem, hpos⟩, hid⟩
    refine ⟨?_, pl, hmem, hid, by simpa using hpos⟩
    simp only [placeFinset, List.mem_toFinset, PetriNet.placeIds, List.mem_map]
    exact ⟨pl, hmem, hid⟩

/-! ### The transition-relation formula -/

/-- Semantics of one transition's disjunct, read off the conjunct list built by
`build_transition_relation_expr`. -/
def transSem (net : PetriNet) (t : String) (m mn : Finset String) : Prop :=
  (∀ p ∈ presetL net t, p ∈ m) ∧
  ∀ p ∈ vars net,
    (if p ∈ presetF net t ∧ p ∉ postsetF net t then p ∉ mn
     else if p ∈ postsetF net t ∧ p ∉ presetF net t then p ∈ mn
     else if p ∈ presetF net t ∧ p ∈ postsetF net t then p ∈ mn
     else (p ∈ mn ↔ p ∈ m))

theorem framePart_eval (net : PetriNet) (t p : String) (m mn : Finset String) :
    (evalB (assignPair m mn) (framePart net t p) = true ↔
      (if p ∈ presetF net t ∧ p ∉ postsetF net t then p ∉ mn
       else if p ∈ postsetF net t ∧ p ∉ presetF net t then p ∈ mn
       else if p ∈ presetF net t ∧ p ∈ postsetF net t then p ∈ mn
       else (p ∈ mn ↔ p ∈ m))) := by
  unfold framePart
  split_ifs <;> simp [evalB, assignPair] <;> tauto

theorem transParts_eval {net : PetriNet} {t : String} {e : BExpr}
    (h : joinAnd (transParts net t) = some e) (m mn : Finset String) :
    (evalB (assignPair m mn) e = true ↔ transSem net t m mn) := by
  rw [joinAnd_eval h]
  unfold transParts transSem
  constructor
  · intro hall
    constructor
    · intro p hp
      have := hall _ (List.mem_append_left _ (List.mem_map_of_mem _ hp))
      simpa [evalB, assignPair] using this
    · intro p hp
      have := hall _ (List.mem_append_right _ (List.mem_map_of_mem _ hp))
      exact (framePart_eval net t p m mn).mp this
  · rintro ⟨h1, h2⟩ x hx
    rcases List.mem_append.mp hx with hx | hx
    · rcases List.mem_map.mp hx with ⟨p, hp, rfl⟩
      simpa [evalB, assignPair] using h1 p hp
    · rcases List.mem_map.mp hx with ⟨p, hp, rfl⟩
      exact (framePart_eval net t p m mn).mpr (h2 p hp)

theorem buildTransList_eval {net : PetriNet} :
    ∀ {ts : List String} {es : List BExpr}, buildTransList net ts = some es →
      ∀ m mn : Finset String,
        ((∃ x ∈ es, evalB (assignPair m mn) x = true) ↔
          ∃ t ∈ ts, transSem net t m mn) := by
  intro ts
  induction ts with
  | nil =>
    intro es h m mn
    simp only [buildTransList, Option.some.injEq] at h
    subst h
    simp
  | cons t ts ih =>
    intro es h m mn
    unfold buildTransList at h
    cases hje : joinAnd (transParts net t) with
    | none => rw [hje] at h; exact absurd h (by simp)
    | some e =>
      rw [hje] at h
      cases hrest : buildTransList net ts with
      | none => rw [hrest] at h; exact absurd h (by simp)
      | some es' =>
        rw [hrest] at h
        simp only [Option.some.injEq] at h
        subst h
        simp only [List.mem_cons]
        constructor
        · rintro ⟨x, hx | hx, hev⟩
          · subst hx
            exact ⟨t, Or.inl rfl, (transParts_eval hje m mn).mp hev⟩
          · rcases (ih hrest m mn).mp ⟨x, hx, hev⟩ with ⟨t', ht', hsem⟩
            exact ⟨t', Or.inr ht', hsem⟩
        · rintro ⟨t', ht' | ht', hsem⟩
          · subst ht'
            exact ⟨e, Or.inl rfl, (transParts_eval hje m mn).mpr hsem⟩
          · rcases (ih hrest m mn).mpr ⟨t', ht', hsem⟩ with ⟨x, hx, hev⟩
            exact ⟨x, Or.inr hx, hev⟩

theorem buildTransExpr_eval {net : PetriNet} {T : BExpr}
    (h : buildTransExpr net = some T) (m mn : Finset String) :
    (evalB (assignPair m mn) T = true ↔ ∃ t ∈ net.transIds, transSem net t m mn) := by
  unfold buildTransExpr at h
  cases hl : buildTransList net net.transIds with
  | none => rw [hl] at h; exact absurd h (by simp)
  | some es =>
    rw [hl] at h
    simp only [Option.some_bind] at h
    rw [joinOr_eval h]
    exact buildTransList_eval hl m mn

theorem presetF_subset (net : PetriNet) (t : String) :
    presetF net t ⊆ placeFinset net := by
  intro p hp
  simp only [presetF, presetL, List.mem_toFinset, List.mem_dedup, List.mem_map,
    List.mem_filter] at hp
  rcases hp with ⟨a, ⟨-, hcond⟩, rfl⟩
  simp only [Bool.and_eq_true, beq_iff_eq] at hcond
  simp only [placeFinset, List.mem_toFinset]
  simpa using hcond.1.1

theorem postsetF_subset (net : PetriNet) (t : String) :
    postsetF net t ⊆ placeFinset net := by
  intro p hp
  simp only [postsetF, postsetL, List.mem_toFinset, List.mem_dedup, List.mem_map,
    List.mem_filter] at hp
  rcases hp with ⟨a, ⟨-, hcond⟩, rfl⟩
  simp only [Bool.and_eq_true, beq_iff_eq] at hcond
  simp only [placeFinset, List.mem_toFinset]
  simpa using hcond.1.2

theorem fire_subset {net : PetriNet} {m : Finset String} (t : String)
    (hm : m ⊆ placeFinset net) : fire net m t ⊆ placeFinset net := by
  intro p hp
  rcases Finset.mem_union.mp hp with hp | hp
  · exact hm (Finset.mem_sdiff.mp hp).1
  · exact postsetF_subset net t hp

theorem transSem_iff_fire {net : PetriNet} {t : String} {m mn : Finset String}
    (hm : m ⊆ placeFinset net) (hmn : mn ⊆ placeFinset net) :
    transSem net t m mn ↔ (presetF net t ⊆ m ∧ mn = fire net m t) := by
  unfold transSem
  have hpre : (∀ p ∈ presetL net t, p ∈ m) ↔ presetF net t ⊆ m := by
    constructor
    · intro h p hp
      exact h p (List.mem_toFinset.mp hp)
    · intro h p hp
      exact h (List.mem_toFinset.mpr hp)
  rw [hpre]
  constructor
  · rintro ⟨h1, h2⟩
    refine ⟨h1, ?_⟩
    ext p
    by_cases hpf : p ∈ placeFinset net
    · have hv := h2 p (mem_placeFinset_iff_vars.mp hpf)
      by_cases hpr : p ∈ presetF net t <;> by_cases hpo : p ∈ postsetF net t <;>
        simp only [hpr, hpo, and_true, and_false, true_and, false_and,
          not_true_eq_false, not_false_eq_true, if_true, if_false] at hv <;>
        simp [fire, Finset.mem_union, Finset.mem_sdiff, hpr, hpo, hv]
    · have hl : p ∉ mn := fun hc => hpf (hmn hc)
      have hr : p ∉ fire net m t := fun hc => hpf (fire_subset t hm hc)
      simp [hl, hr]
  · rintro ⟨h1, rfl⟩
    refine ⟨h1, ?_⟩
    intro p hp
    by_cases hpr : p ∈ presetF net t <;> by_cases hpo : p ∈ postsetF net t <;>
      simp [hpr, hpo, fire, Finset.mem_union, Finset.mem_sdiff]

/-! ### The fixed-point loop -/

theorem iterate_subset_space {net : PetriNet} (tE : BExpr) {S : Finset (Finset String)}
    (hS : S ⊆ markingSpace net) (i : Nat) :
    (fun R => R ∪ bddImage net tE R)^[i] S ⊆ markingSpace net := by
  induction i with
  | zero => simpa
  | succ i ih =>
    rw [Function.iterate_succ_apply']
    exact Finset.union_subset ih (Finset.filter_subset _ _)

theorem subset_iterate {net : PetriNet} {tE : BExpr} (S : Finset (Finset String))
    (i : Nat) : S ⊆ (fun R => R ∪ bddImage net tE R)^[i] S := by
  induction i with
  | zero => simp
  | succ i ih =>
    rw [Function.iterate_succ_apply']
    exact ih.trans Finset.subset_union_left

theorem iterate_mono_step {net : PetriNet} {tE : BExpr} (S : Finset (Finset String))
    (i : Nat) :
    (fun R => R ∪ bddImage net tE R)^[i] S ⊆ (fun R => R ∪ bddImage net tE R)^[i+1] S := by
  rw [Function.iterate_succ_apply']
  exact Finset.subset_union_left

theorem exists_fix {net : PetriNet} (tE : BExpr) {S : Finset (Finset String)}
    (hS : S ⊆ markingSpace net) (hne : S.Nonempty) :
    ∃ k < 2 ^ net.placeIds.length,
      (fun R => R ∪ bddImage net tE R)^[k+1] S = (fun R => R ∪ bddImage net tE R)^[k] S := by
  by_contra hcon
  push_neg at hcon
  have grow : ∀ k, k ≤ 2 ^ net.placeIds.length →
      k + 1 ≤ ((fun R => R ∪ bddImage net tE R)^[k] S).card := by
    intro k
    induction k with
    | zero =>
      intro _
      simpa using Finset.Nonempty.card_pos hne
    | succ k ih =>
      intro hk
      have h1 : k + 1 ≤ ((fun R => R ∪ bddImage net tE R)^[k] S).card :=
        ih (Nat.le_of_succ_le hk)
      have hne2 := hcon k (Nat.lt_of_succ_le hk)
      have hss : (fun R => R ∪ bddImage net tE R)^[k] S ⊂
          (fun R => R ∪ bddImage net tE R)^[k+1] S :=
        (Finset.ssubset_iff_subset_ne).mpr ⟨iterate_mono_step S k, fun hc => hne2 hc.symm⟩
      have := Finset.card_lt_card hss
      omega
  have hb := grow (2 ^ net.placeIds.length) le_rfl
  have hle : ((fun R => R ∪ bddImage net tE R)^[2 ^ net.placeIds.length] S).card ≤
      (markingSpace net).card :=
    Finset.card_le_card (iterate_subset_space tE hS _)
  have hcardspace : (markingSpace net).card = 2 ^ (placeFinset net).card :=
    Finset.card_powerset _
  have hcardle : (placeFinset net).card ≤ net.placeIds.length := List.toFinset_card_le _
  have hpow : 2 ^ (placeFinset net).card ≤ 2 ^ net.placeIds.length :=
    Nat.pow_le_pow_right (by norm_num) hcardle
  omega

theorem reachLoop_eq {f : Finset (Finset String) → Finset (Finset String)} :
    ∀ (k : Nat) {fuel : Nat} {S}, f^[k+1] S = f^[k] S → (∀ j < k, f^[j+1] S ≠ f^[j] S) →
      k < fuel → reachLoop f fuel S = (f^[k] S, k + 1) := by
  intro k
  induction k with
  | zero =>
    intro fuel S hfix hmin hlt
    match fuel, hlt with
    | fuel + 1, _ =>
      have hfs : f S = S := by simpa using hfix
      simp [reachLoop, hfs]
  | succ k ih =>
    intro fuel S hfix hmin hlt
    match fuel, hlt with
    | fuel + 1, hlt =>
      have hne : ¬ f S = S := by simpa using hmin 0 (Nat.succ_pos k)
      have hfix' : f^[k+1] (f S) = f^[k] (f S) := by
        rw [← Function.iterate_succ_apply, ← Function.iterate_succ_apply]
        exact hfix
      have hmin' : ∀ j < k, f^[j+1] (f S) ≠ f^[j] (f S) := by
        intro j hj
        rw [← Function.iterate_succ_apply, ← Function.iterate_succ_apply]
        exact hmin (j + 1) (Nat.succ_lt_succ hj)
      have hrec := ih hfix' hmin' (Nat.lt_of_succ_lt_succ hlt)
      simp only [reachLoop, hne, if_false, hrec]
      rw [← Function.iterate_succ_apply]

theorem initParts_ne_nil {net : PetriNet} (hp : net.placeIds ≠ []) :
    initParts net ≠ [] := by
  unfold initParts
  simp [vars_eq_nil_iff, hp]

theorem buildInitExpr_isSome {net : PetriNet} (hp : net.placeIds ≠ []) :
    ∃ e, buildInitExpr net = some e :=
  joinAnd_isSome (initParts_ne_nil hp)

theorem buildTransList_isSome {net : PetriNet} (hp : net.placeIds ≠ []) :
    ∀ ts : List String, ∃ es, buildTransList net ts = some es ∧ es.length = ts.length := by
  intro ts
  induction ts with
  | nil => exact ⟨[], rfl, rfl⟩
  | cons t ts ih =>
    rcases ih with ⟨es, hes, hlen⟩
    have hne : transParts net t ≠ [] := by
      unfold transParts
      simp [vars_eq_nil_iff, hp]
    rcases joinAnd_isSome hne with ⟨e, he⟩
    refine ⟨e :: es, ?_, by simp [hlen]⟩
    unfold buildTransList
    rw [he, hes]

theorem buildTransExpr_isSome {net : PetriNet} (hp : net.placeIds ≠ [])
    (ht : net.transIds ≠ []) : ∃ tE, buildTransExpr net = some tE := by
  rcases buildTransList_isSome hp net.transIds with ⟨es, hes, hlen⟩
  have hne : es ≠ [] := by
    intro hc
    rw [hc] at hlen
    exact ht (List.eq_nil_of_length_eq_zero hlen.symm)
  unfold buildTransExpr
  rw [hes]
  cases es with
  | nil => exact absurd rfl hne
  | cons e es' => exact ⟨_, rfl⟩

theorem symInit_subset (net : PetriNet) : symInit net ⊆ placeFinset net :=
  Finset.filter_subset _ _

/-- The run of `compute_reachable` on a net with at least one place and one
transition: it returns the `(k-1)`-th iterate, a fixed point, within
`2 ^ |places|` iterations. -/
theorem computeReachable_ok {net : PetriNet} (hp : net.placeIds ≠ [])
    (ht : net.transIds ≠ []) :
    ∃ tE R k, buildTransExpr net = some tE ∧
      computeReachable net = .ok (R, k) ∧
      1 ≤ k ∧ k ≤ 2 ^ net.placeIds.length ∧
      R = (fun X => X ∪ bddImage net tE X)^[k-1] {symInit net} ∧
      R ∪ bddImage net tE R = R := by
  rcases buildInitExpr_isSome hp with ⟨e0, he0⟩
  rcases buildTransExpr_isSome hp ht with ⟨tE, htE⟩
  have hspace : ({symInit net} : Finset (Finset String)) ⊆ markingSpace net := by
    intro m hm
    rw [Finset.mem_singleton] at hm
    subst hm
    simpa [markingSpace] using symInit_subset net
  have hne : ({symInit net} : Finset (Finset String)).Nonempty := ⟨_, Finset.mem_singleton_self _⟩
  rcases exists_fix tE hspace hne with ⟨k0, hk0, hfix0⟩
  have hex : ∃ k, (fun R => R ∪ bddImage net tE R)^[k+1] {symInit net} =
      (fun R => R ∪ bddImage net tE R)^[k] {symInit net} := ⟨k0, hfix0⟩
  set P : Nat → Prop := fun k => (fun R => R ∪ bddImage net tE R)^[k+1] {symInit net} =
      (fun R => R ∪ bddImage net tE R)^[k] {symInit net} with hP
  have hfind := Nat.find_spec hex
  have hmin : ∀ j < Nat.find hex, ¬ P j := fun j hj => Nat.find_min hex hj
  have hkb : Nat.find hex ≤ k0 := Nat.find_le hfix0
  have hlt : Nat.find hex < 2 ^ net.placeIds.length := lt_of_le_of_lt hkb hk0
  refine ⟨tE, (fun R => R ∪ bddImage net tE R)^[Nat.find hex] {symInit net},
    Nat.find hex + 1, htE, ?_, by omega, by omega, by simp, ?_⟩
  · unfold computeReachable
    rw [he0, htE]
    dsimp only
    rw [denoteCur_init he0]
    rw [reachLoop_eq (Nat.find hex) hfind hmin hlt]
  · have := hfind
    rw [Function.iterate_succ_apply'] at this
    exact this

/-- Membership in the image step, through the transition-relation formula. -/
theorem bddImage_mem {net : PetriNet} {tE : BExpr} (htE : buildTransExpr net = some tE)
    {R : Finset (Finset String)} (hR : R ⊆ markingSpace net) (mn : Finset String) :
    mn ∈ bddImage net tE R ↔
      ∃ m ∈ R, ∃ t ∈ net.transIds, presetF net t ⊆ m ∧ mn = fire net m t := by
  unfold bddImage
  simp only [Finset.mem_filter, markingSpace, Finset.mem_powerset]
  constructor
  · rintro ⟨hmn, m, hm, hev⟩
    rcases (buildTransExpr_eval htE m mn).mp hev with ⟨t, htt, hsem⟩
    have hmsub : m ⊆ placeFinset net := by
      have := hR hm
      simpa [markingSpace] using this
    rcases (transSem_iff_fire hmsub hmn).mp hsem with ⟨hpre, rfl⟩
    exact ⟨m, hm, t, htt, hpre, rfl⟩
  · rintro ⟨m, hm, t, htt, hpre, rfl⟩
    have hmsub : m ⊆ placeFinset net := by
      have := hR hm
      simpa [markingSpace] using this
    have hfsub : fire net m t ⊆ placeFinset net := fire_subset t hmsub
    refine ⟨hfsub, m, hm, ?_⟩
    rw [buildTransExpr_eval htE]
    exact ⟨t, htt, (transSem_iff_fire hmsub hfsub).mpr ⟨hpre, rfl⟩⟩

/-! ### The reachable closure and its uniqueness -/

/-- `S` is closed under firing enabled transitions. -/
def ReachClosed (net : PetriNet) (S : Finset (Finset String)) : Prop :=
  ∀ m ∈ S, ∀ t ∈ net.transIds, presetF net t ⊆ m → fire net m t ∈ S

theorem mem_of_reaches {net : PetriNet} {S : Finset (Finset String)}
    (h0 : bfsInit net ∈ S) (hc : ReachClosed net S) :
    ∀ m, Reaches net m → m ∈ S := by
  intro m h
  induction h with
  | refl => exact h0
  | tail hr hstep ih =>
    rcases hstep with ⟨t, ht, hpre, rfl⟩
    exact hc _ ih t ht hpre

theorem closure_unique {net : PetriNet} {S1 S2 : Finset (Finset String)}
    (h01 : bfsInit net ∈ S1) (hc1 : ReachClosed net S1) (hs1 : ∀ m ∈ S1, Reaches net m)
    (h02 : bfsInit net ∈ S2) (hc2 : ReachClosed net S2) (hs2 : ∀ m ∈ S2, Reaches net m) :
    S1 = S2 :=
  Finset.Subset.antisymm
    (fun m hm => mem_of_reaches h02 hc2 m (hs1 m hm))
    (fun m hm => mem_of_reaches h01 hc1 m (hs2 m hm))

/-- The reachable-set formula computed by the loop denotes exactly the closure
of the initial marking under firing. -/
theorem computeReachable_closure {net : PetriNet} (hp : net.placeIds ≠ [])
    (ht : net.transIds ≠ []) (hnd : net.placeIds.Nodup) :
    ∃ R k, computeReachable net = .ok (R, k) ∧ bfsInit net ∈ R ∧
      R ⊆ markingSpace net ∧ ReachClosed net R ∧ (∀ m ∈ R, Reaches net m) := by
  rcases computeReachable_ok hp ht with ⟨tE, R, k, htE, hok, hk1, hkb, hRdef, hfix⟩
  have hspace0 : ({symInit net} : Finset (Finset String)) ⊆ markingSpace net := by
    intro m hm
    rw [Finset.mem_singleton] at hm
    subst hm
    simpa [markingSpace] using symInit_subset net
  have hRspace : R ⊆ markingSpace net := by
    rw [hRdef]
    exact iterate_subset_space tE hspace0 _
  have hinit : bfsInit net ∈ R := by
    rw [hRdef]
    apply subset_iterate
    simp [symInit_eq_bfsInit hnd]
  have hclosed : ReachClosed net R := by
    intro m hm t htt hpre
    have himg : fire net m t ∈ bddImage net tE R :=
      (bddImage_mem htE hRspace _).mpr ⟨m, hm, t, htt, hpre, rfl⟩
    rw [← hfix]
    exact Finset.mem_union_right _ himg
  have hsound : ∀ m ∈ R, Reaches net m := by
    have h : ∀ i, ∀ m ∈ (fun X => X ∪ bddImage net tE X)^[i] {symInit net},
        Reaches net m := by
      intro i
      induction i with
      | zero =>
        intro m hm
        simp only [Function.iterate_zero_apply, Finset.mem_singleton] at hm
        subst hm
        rw [symInit_eq_bfsInit hnd]
        exact Relation.ReflTransGen.refl
      | succ i ih =>
        intro m hm
        rw [Function.iterate_succ_apply'] at hm
        rcases Finset.mem_union.mp hm with hm | hm
        · exact ih m hm
        · have hsub := iterate_subset_space tE hspace0 i
          rcases (bddImage_mem htE hsub m).mp hm with ⟨m', hm', t, htt, hpre, rfl⟩
          exact Relation.ReflTransGen.tail (ih m' hm') ⟨t, htt, hpre, rfl⟩
    rw [hRdef]
    exact h _
  exact ⟨R, k, hok, hinit, hRspace, hclosed, hsound⟩

/-! ### The breadth-first enumeration -/

theorem bfsInit_subset (net : PetriNet) : bfsInit net ⊆ placeFinset net := by
  intro p hp
  simp only [bfsInit, List.mem_toFinset, List.mem_map, List.mem_filter] at hp
  rcases hp with ⟨pl, ⟨hmem, -⟩, rfl⟩
  simp only [placeFinset, List.mem_toFinset, PetriNet.placeIds, List.mem_map]
  exact ⟨pl, hmem, rfl⟩

theorem bfsExpand_spec (net : PetriNet) (m : Finset String) :
    ∀ (ts : List String) (v : Finset (Finset String)) (q : List (Finset String)),
      ∃ new : List (Finset String),
        bfsExpand net m ts (v, q) = (v ∪ new.toFinset, q ++ new) ∧
        new.Nodup ∧ (∀ x ∈ new, x ∉ v) ∧
        (∀ x ∈ new, ∃ t ∈ ts, presetF net t ⊆ m ∧ x = fire net m t) ∧
        (∀ t ∈ ts, presetF net t ⊆ m → fire net m t ∈ v ∪ new.toFinset) := by
  intro ts
  induction ts with
  | nil =>
    intro v q
    exact ⟨[], by simp [bfsExpand], by simp, by simp, by simp, by simp⟩
  | cons t ts ih =>
    intro v q
    by_cases hen : presetF net t ⊆ m
    · by_cases hold : fire net m t ∈ v
      · rcases ih v q with ⟨new, heq, hnd, hnotv, hsound, hcompl⟩
        refine ⟨new, ?_, hnd, hnotv, ?_, ?_⟩
        · simpa [bfsExpand, hen, hold] using heq
        · intro x hx
          rcases hsound x hx with ⟨t', ht', h1, h2⟩
          exact ⟨t', List.mem_cons_of_mem _ ht', h1, h2⟩
        · intro t' ht' hpre'
          rcases List.mem_cons.mp ht' with h | h
          · subst h
            exact Finset.mem_union_left _ hold
          · exact hcompl t' h hpre'
      · rcases ih (insert (fire net m t) v) (q ++ [fire net m t]) with
          ⟨new, heq, hnd, hnotv, hsound, hcompl⟩
        refine ⟨fire net m t :: new, ?_, ?_, ?_, ?_, ?_⟩
        · have hstep : bfsExpand net m (t :: ts) (v, q) =
              bfsExpand net m ts (insert (fire net m t) v, q ++ [fire net m t]) := by
            simp [bfsExpand, hen, hold]
          rw [hstep, heq]
          simp only [Prod.mk.injEq]
          refine ⟨?_, by simp⟩
          ext x
          simp only [List.toFinset_cons, Finset.mem_union, Finset.mem_insert]
          tauto
        · refine List.nodup_cons.mpr ⟨?_, hnd⟩
          intro hc
          exact (hnotv _ hc) (Finset.mem_insert_self _ _)
        · intro x hx
          rcases List.mem_cons.mp hx with h | h
          · subst h
            exact hold
          · intro hc
            exact (hnotv x h) (Finset.mem_insert_of_mem hc)
        · intro x hx
          rcases List.mem_cons.mp hx with h | h
          · exact ⟨t, List.mem_cons_self _ _, hen, h⟩
          · rcases hsound x h with ⟨t', ht', h1, h2⟩
            exact ⟨t', List.mem_cons_of_mem _ ht', h1, h2⟩
        · intro t' ht' hpre'
          rcases List.mem_cons.mp ht' with h | h
          · subst h
            simp
          · have := hcompl t' h hpre'
            rcases Finset.mem_union.mp this with h2 | h2
            · rcases Finset.mem_insert.mp h2 with h3 | h3
              · rw [h3]
                simp
              · exact Finset.mem_union_left _ h3
            · apply Finset.mem_union_right
              simp only [List.toFinset_cons, Finset.mem_insert]
              exact Or.inr h2
    · rcases ih v q with ⟨new, heq, hnd, hnotv, hsound, hcompl⟩
      refine ⟨new, ?_, hnd, hnotv, ?_, ?_⟩
      · simpa [bfsExpand, hen] using heq
      · intro x hx
        rcases hsound x hx with ⟨t', ht', h1, h2⟩
        exact ⟨t', List.mem_cons_of_mem _ ht', h1, h2⟩
      · intro t' ht' hpre'
        rcases List.mem_cons.mp ht' with h | h
        · subst h
          exact absurd hpre' hen
        · exact hcompl t' h hpre'

theorem bfsAux_spec (net : PetriNet) :
    ∀ (fuel : Nat) (v : Finset (Finset String)) (q : List (Finset String)),
      (∀ x ∈ q, x ∈ v) → q.Nodup → v ⊆ markingSpace net →
      (∀ x ∈ v, Reaches net x) →
      (∀ x ∈ v, x ∈ q ∨ ∀ t ∈ net.transIds, presetF net t ⊆ x → fire net x t ∈ v) →
      2 * ((markingSpace net).card - v.card) + q.length ≤ fuel →
      ∃ V, bfsAux net fuel v q = some V ∧ v ⊆ V ∧ V ⊆ markingSpace net ∧
        (∀ x ∈ V, Reaches net x) ∧ ReachClosed net V := by
  intro fuel
  induction fuel with
  | zero =>
    intro v q hqv hqnd hvsp hvre hvcl hfuel
    cases q with
    | nil =>
      refine ⟨v, rfl, Finset.Subset.refl v, hvsp, hvre, ?_⟩
      intro x hx t ht hpre
      rcases hvcl x hx with h | h
      · exact absurd h (List.not_mem_nil x)
      · exact h t ht hpre
    | cons m rest => simp at hfuel
  | succ fuel ih =>
    intro v q hqv hqnd hvsp hvre hvcl hfuel
    cases q with
    | nil =>
      refine ⟨v, rfl, Finset.Subset.refl v, hvsp, hvre, ?_⟩
      intro x hx t ht hpre
      rcases hvcl x hx with h | h
      · exact absurd h (List.not_mem_nil x)
      · exact h t ht hpre
    | cons m rest =>
      have hmv : m ∈ v := hqv m (List.mem_cons_self _ _)
      have hmsp : m ⊆ placeFinset net := by
        have := hvsp hmv
        simpa [markingSpace] using this
      rcases bfsExpand_spec net m net.transIds v [] with
        ⟨new, heq, hnd, hnotv, hsound, hcompl⟩
      have hstep : bfsAux net (fuel + 1) v (m :: rest) =
          bfsAux net fuel (v ∪ new.toFinset) (rest ++ new) := by
        simp only [bfsAux, heq, List.nil_append]
      have hdisj : Disjoint v new.toFinset := by
        rw [Finset.disjoint_right]
        intro x hx
        exact hnotv x (List.mem_toFinset.mp hx)
      have hcard : (v ∪ new.toFinset).card = v.card + new.length := by
        rw [Finset.card_union_of_disjoint hdisj, List.toFinset_card_of_nodup hnd]
      have hsub2 : v ∪ new.toFinset ⊆ markingSpace net := by
        apply Finset.union_subset hvsp
        intro x hx
        rcases hsound x (List.mem_toFinset.mp hx) with ⟨t, -, -, rfl⟩
        simpa [markingSpace] using fire_subset t hmsp
      have hle : (v ∪ new.toFinset).card ≤ (markingSpace net).card :=
        Finset.card_le_card hsub2
      have hrest : ∀ x ∈ rest ++ new, x ∈ v ∪ new.toFinset := by
        intro x hx
        rcases List.mem_append.mp hx with hx | hx
        · exact Finset.mem_union_left _ (hqv x (List.mem_cons_of_mem _ hx))
        · exact Finset.mem_union_right _ (List.mem_toFinset.mpr hx)
      have hndrest : (rest ++ new).Nodup := by
        rcases List.nodup_cons.mp hqnd with ⟨hmni, hrnd⟩
        refine List.nodup_append.mpr ⟨hrnd, hnd, ?_⟩
        intro x hx hxnew
        exact hnotv x hxnew (hqv x (List.mem_cons_of_mem _ hx))
      have hre2 : ∀ x ∈ v ∪ new.toFinset, Reaches net x := by
        intro x hx
        rcases Finset.mem_union.mp hx with hx | hx
        · exact hvre x hx
        · rcases hsound x (List.mem_toFinset.mp hx) with ⟨t, ht, hpre, rfl⟩
          exact Relation.ReflTransGen.tail (hvre m hmv) ⟨t, ht, hpre, rfl⟩
      have hcl2 : ∀ x ∈ v ∪ new.toFinset, x ∈ rest ++ new ∨
          ∀ t ∈ net.transIds, presetF net t ⊆ x → fire net x t ∈ v ∪ new.toFinset := by
        intro x hx
        rcases Finset.mem_union.mp hx with hx | hx
        · by_cases hxm : x = m
          · subst hxm
            exact Or.inr (fun t ht hpre => hcompl t ht hpre)
          · rcases hvcl x hx with h | h
            · rcases List.mem_cons.mp h with h2 | h2
              · exact absurd h2 hxm
              · exact Or.inl (List.mem_append_left _ h2)
            · exact Or.inr fun t ht hpre => Finset.mem_union_left _ (h t ht hpre)
        · exact Or.inl (List.mem_append_right _ (List.mem_toFinset.mp hx))
      have hfuel2 : 2 * ((markingSpace net).card - (v ∪ new.toFinset).card) +
          (rest ++ new).length ≤ fuel := by
        rw [hcard, List.length_append]
        have hvle : v.card ≤ (markingSpace net).card :=
          Finset.card_le_card hvsp
        simp only [List.length_cons] at hfuel
        omega
      rcases ih (v ∪ new.toFinset) (rest ++ new) hrest hndrest hsub2 hre2 hcl2 hfuel2 with
        ⟨V, hV, hsubV, hVsp, hVre, hVcl⟩
      exact ⟨V, by rw [hstep]; exact hV, Finset.subset_union_left.trans hsubV, hVsp, hVre, hVcl⟩

/-- The breadth-first search enumerates exactly the closure of the initial
marking under firing. -/
theorem bfsRun_spec (net : PetriNet) :
    ∃ V, bfsRun net = some V ∧ bfsInit net ∈ V ∧ V ⊆ markingSpace net ∧
      (∀ x ∈ V, Reaches net x) ∧ ReachClosed net V := by
  have hinit : ({bfsInit net} : Finset (Finset String)) ⊆ markingSpace net := by
    intro x hx
    rw [Finset.mem_singleton] at hx
    subst hx
    simpa [markingSpace] using bfsInit_subset net
  have hcard1 : ({bfsInit net} : Finset (Finset String)).card = 1 := Finset.card_singleton _
  have hcp : (markingSpace net).card = 2 ^ (placeFinset net).card :=
    Finset.card_powerset _
  have hsc : 1 ≤ (markingSpace net).card := by
    rw [hcp]
    exact Nat.one_le_two_pow
  have hscle : (markingSpace net).card ≤ 2 ^ net.placeIds.length := by
    rw [hcp]
    exact Nat.pow_le_pow_right (by norm_num) (List.toFinset_card_le _)
  have hfuel : 2 * ((markingSpace net).card - ({bfsInit net} : Finset (Finset String)).card)
      + [bfsInit net].length ≤ 2 * 2 ^ net.placeIds.length + 1 := by
    rw [hcard1]
    simp only [List.length_singleton]
    omega
  rcases bfsAux_spec net (2 * 2 ^ net.placeIds.length + 1) {bfsInit net} [bfsInit net]
    (by simp) (List.nodup_singleton _) hinit
    (by
      intro x hx
      rw [Finset.mem_singleton] at hx
      subst hx
      exact Relation.ReflTransGen.refl)
    (by
      intro x hx
      rw [Finset.mem_singleton] at hx
      subst hx
      exact Or.inl (List.mem_singleton_self _))
    hfuel with ⟨V, hV, hsubV, hVsp, hVre, hVcl⟩
  exact ⟨V, hV, hsubV (Finset.mem_singleton_self _), hVsp, hVre, hVcl⟩

/-! ### Consequences of a clean validation -/

theorem dupErrs_eq_nil : ∀ (seen l : List String),
    dupErrs seen l = [] ↔ (l.Nodup ∧ ∀ x ∈ l, x ∉ seen) := by
  intro seen l
  induction l generalizing seen with
  | nil => simp [dupErrs]
  | cons x xs ih =>
    unfold dupErrs
    by_cases hx : x ∈ seen
    · simp only [hx, if_true, List.cons_append]
      constructor
      · intro h
        exact absurd h (List.cons_ne_nil _ _)
      · rintro ⟨-, hall⟩
        exact absurd hx (hall x (List.mem_cons_self _ _))
    · simp only [hx, if_false, List.nil_append]
      rw [ih (x :: seen)]
      simp only [List.nodup_cons, List.mem_cons]
      constructor
      · rintro ⟨hnd, hall⟩
        have hxnot : x ∉ xs := fun hc => (hall x hc) (Or.inl rfl)
        refine ⟨⟨hxnot, hnd⟩, ?_⟩
        intro y hy
        rcases hy with rfl | hy
        · exact hx
        · exact fun hc => (hall y hy) (Or.inr hc)
      · rintro ⟨⟨hxnot, hnd⟩, hall⟩
        refine ⟨hnd, ?_⟩
        intro y hy hc
        rcases hc with rfl | hc
        · exact hxnot hy
        · exact (hall y (Or.inr hy)) hc

theorem foldr_arcErrs_eq_nil (net : PetriNet) : ∀ l : List Arc,
    (l.foldr (fun a acc => arcErrs net a ++ acc) [] = []) ↔
      ∀ a ∈ l, arcErrs net a = [] := by
  intro l
  induction l with
  | nil => simp
  | cons a l ih => simp [ih]

theorem arcErrs_eq_nil {net : PetriNet} {a : Arc} (h : arcErrs net a = []) :
    ∃ s t, nodeType net a.source = some s ∧ nodeType net a.target = some t ∧ s ≠ t := by
  unfold arcErrs at h
  rcases hns : nodeType net a.source with _ | s
  · rw [hns] at h
    simp at h
  · rcases hnt : nodeType net a.target with _ | t
    · rw [hns, hnt] at h
      simp at h
    · rw [hns, hnt] at h
      simp only [List.nil_append] at h
      refine ⟨s, t, rfl, rfl, ?_⟩
      intro hc
      subst hc
      simp at h

theorem validNet_parts {net : PetriNet} (h : ValidNet net) :
    net.placeIds ≠ [] ∧ net.transIds ≠ [] ∧ net.placeIds.Nodup ∧ net.transIds.Nodup ∧
      (∀ t ∈ net.transIds, t ∉ net.placeIds) ∧
      (∀ a ∈ net.arcs, arcErrs net a = []) := by
  unfold ValidNet netValidate at h
  simp only [List.append_eq_nil] at h
  obtain ⟨⟨⟨⟨h1, h2⟩, h3⟩, h4⟩, h5⟩ := h
  have hpl : net.places ≠ [] := by
    intro hc
    rw [if_pos hc] at h1
    exact List.cons_ne_nil _ _ h1
  have htr : net.transitions ≠ [] := by
    intro hc
    rw [if_pos hc] at h2
    exact List.cons_ne_nil _ _ h2
  have hpid : net.placeIds ≠ [] := by
    simp only [PetriNet.placeIds, ne_eq, List.map_eq_nil_iff]
    exact hpl
  have htid : net.transIds ≠ [] := by
    simp only [PetriNet.transIds, ne_eq, List.map_eq_nil_iff]
    exact htr
  have hpd := (dupErrs_eq_nil [] net.placeIds).mp h3
  have htd := (dupErrs_eq_nil net.placeIds net.transIds).mp h4
  exact ⟨hpid, htid, hpd.1, htd.1, htd.2, (foldr_arcErrs_eq_nil net net.arcs).mp h5⟩

/-! ### Agreement of the symbolic and explicit reachable sets -/

theorem counts_agree {net : PetriNet} (h : ValidNet net) :
    ∃ R k V, computeReachable net = .ok (R, k) ∧ bfsRun net = some V ∧
      R = V ∧ countSat R = V.card := by
  obtain ⟨hp, ht, hnd, -, -, -⟩ := validNet_parts h
  rcases computeReachable_closure hp ht hnd with ⟨R, k, hok, hR0, hRsp, hRcl, hRre⟩
  rcases bfsRun_spec net with ⟨V, hV, hV0, hVsp, hVre, hVcl⟩
  have hRV : R = V := closure_unique hR0 hRcl hRre hV0 hVcl hVre
  exact ⟨R, k, V, hok, hV, hRV, by rw [countSat, hRV]⟩

/-! ### The binary-program model -/

theorem indSum_eq_filter_length (l : List String) (m : Finset String) :
    indSum l m = (((l.filter (fun p => decide (p ∈ m))).length : Int)) := by
  induction l with
  | nil => simp [indSum]
  | cons x xs ih =>
    simp only [indSum] at ih ⊢
    by_cases hx : x ∈ m
    · simp [List.filter_cons, hx, ih]
      ring
    · simp [List.filter_cons, hx, ih]

theorem length_filter_mem {l : List String} (hnd : l.Nodup) (m : Finset String) :
    (l.filter (fun p => decide (p ∈ m))).length = (l.toFinset ∩ m).card := by
  rw [← List.toFinset_card_of_nodup (hnd.filter _)]
  congr 1
  ext x
  simp only [List.mem_toFinset, List.mem_filter, Finset.mem_inter, decide_eq_true_eq]

theorem indSum_nodup {l : List String} (hnd : l.Nodup) (m : Finset String) :
    indSum l m = ((l.toFinset ∩ m).card : Int) := by
  rw [indSum_eq_filter_length, length_filter_mem hnd]

theorem presetL_nodup (net : PetriNet) (t : String) : (presetL net t).Nodup :=
  List.nodup_dedup _

/-- The structural constraint of the deadlock search disables exactly the
transitions whose preset is not fully marked. -/
theorem disableOk_iff (net : PetriNet) (t : String) (m : Finset String) :
    disableOk net t m ↔ ¬ presetF net t ⊆ m := by
  unfold disableOk
  rw [indSum_eq_filter_length]
  have hlen := List.length_filter_le (fun p => decide (p ∈ m)) (presetL net t)
  constructor
  · intro h hsub
    have heq : (presetL net t).filter (fun p => decide (p ∈ m)) = presetL net t := by
      apply List.filter_eq_self.mpr
      intro p hp
      simpa using hsub (List.mem_toFinset.mpr hp)
    rw [heq] at h
    omega
  · intro hsub
    have hex : ∃ p ∈ presetL net t, ¬ (decide (p ∈ m) = true) := by
      by_contra hall
      push_neg at hall
      apply hsub
      intro p hp
      simpa using hall p (List.mem_toFinset.mp hp)
    have hlt : ((presetL net t).filter (fun p => decide (p ∈ m))).length <
        (presetL net t).length := by
      rcases hex with ⟨p, hp, hnp⟩
      exact List.length_filter_lt_length_iff_exists.mpr ⟨p, hp, hnp⟩
    omega

/-- The no-good cut built from assignment `a` is satisfied by exactly the
assignments over the variable set that differ from `a`. -/
theorem cutOk_iff {varsL : List String} (hnd : varsL.Nodup) {a m : Finset String}
    (ha : a ⊆ varsL.toFinset) (hm : m ⊆ varsL.toFinset) :
    cutOk varsL a m ↔ m ≠ a := by
  have hndA : (varsL.filter (fun p => decide (p ∈ a))).Nodup := hnd.filter _
  have hndB : (varsL.filter (fun p => decide (p ∉ a))).Nodup := hnd.filter _
  have hAset : (varsL.filter (fun p => decide (p ∈ a))).toFinset = a := by
    ext x
    simp only [List.mem_toFinset, List.mem_filter, decide_eq_true_eq]
    constructor
    · rintro ⟨-, hx⟩
      exact hx
    · intro hx
      exact ⟨List.mem_toFinset.mp (ha hx), hx⟩
  have hBset : (varsL.filter (fun p => decide (p ∉ a))).toFinset =
      varsL.toFinset \ a := by
    ext x
    simp only [List.mem_toFinset, List.mem_filter, decide_eq_true_eq, Finset.mem_sdiff]
  have hA : indSum (varsL.filter (fun p => decide (p ∈ a))) m = ((a ∩ m).card : Int) := by
    rw [indSum_nodup hndA, hAset]
  have hB : indSum (varsL.filter (fun p => decide (p ∉ a))) m =
      ((m \ a).card : Int) := by
    rw [indSum_nodup hndB, hBset]
    have hset : (varsL.toFinset \ a) ∩ m = m \ a := by
      ext x
      simp only [Finset.mem_inter, Finset.mem_sdiff]
      constructor
      · rintro ⟨⟨hxl, hxa⟩, hxm⟩
        exact ⟨hxm, hxa⟩
      · rintro ⟨hxm, hxa⟩
        exact ⟨⟨hm hxm, hxa⟩, hxm⟩
    rw [hset]
  have hlenA : ((varsL.filter (fun p => decide (p ∈ a))).length : Int) = (a.card : Int) := by
    rw [← List.toFinset_card_of_nodup hndA, hAset]
  unfold cutOk
  rw [hA, hB, hlenA]
  constructor
  · intro h hc
    subst hc
    simp only [Finset.inter_self, Finset.sdiff_self, Finset.card_empty] at h
    omega
  · intro hne
    by_cases hsub : a ⊆ m
    · have hssub : a ⊂ m := by
        refine ⟨hsub, ?_⟩
        intro hms
        exact hne (Finset.Subset.antisymm hms hsub)
      have hint : a ∩ m = a := Finset.inter_eq_left.mpr hsub
      have hpos : 0 < (m \ a).card := by
        rw [Finset.card_pos, Finset.sdiff_nonempty]
        exact fun hc => hne (Finset.Subset.antisymm hc hsub)
      rw [hint]
      omega
    · have hlt : (a ∩ m).card < a.card := by
        apply Finset.card_lt_card
        refine ⟨Finset.inter_subset_left, ?_⟩
        intro hc
        exact hsub fun x hx => Finset.mem_inter.mp (hc hx) |>.2
      omega

theorem pickMax_eq_none {f : Finset String → Int} :
    ∀ {l : List (Finset String)}, pickMax f l = none ↔ l = [] := by
  intro l
  cases l with
  | nil => simp [pickMax]
  | cons x xs =>
    simp only [List.cons_ne_nil, iff_false]
    cases hrec : pickMax f xs with
    | none => simp [pickMax, hrec]
    | some y =>
      by_cases h : f y ≤ f x <;> simp [pickMax, hrec, h]

theorem pickMax_mem {f : Finset String → Int} :
    ∀ {l : List (Finset String)} {c}, pickMax f l = some c → c ∈ l := by
  intro l
  induction l with
  | nil => intro c h; simp [pickMax] at h
  | cons x xs ih =>
    intro c h
    cases hrec : pickMax f xs with
    | none =>
      simp only [pickMax, hrec, Option.some.injEq] at h
      subst h
      exact List.mem_cons_self _ _
    | some y =>
      simp only [pickMax, hrec] at h
      by_cases hle : f y ≤ f x
      · rw [if_pos hle] at h
        simp only [Option.some.injEq] at h
        subst h
        exact List.mem_cons_self _ _
      · rw [if_neg hle] at h
        simp only [Option.some.injEq] at h
        subst h
        exact List.mem_cons_of_mem _ (ih hrec)

theorem pickMax_le {f : Finset String → Int} :
    ∀ {l : List (Finset String)} {c}, pickMax f l = some c → ∀ d ∈ l, f d ≤ f c := by
  intro l
  induction l with
  | nil => intro c h; simp [pickMax] at h
  | cons x xs ih =>
    intro c h d hd
    cases hrec : pickMax f xs with
    | none =>
      simp only [pickMax, hrec, Option.some.injEq] at h
      subst h
      rcases List.mem_cons.mp hd with rfl | hd
      · exact le_refl _
      · rw [pickMax_eq_none.mp hrec] at hd
        exact absurd hd (List.not_mem_nil d)
    | some y =>
      simp only [pickMax, hrec] at h
      by_cases hle : f y ≤ f x
      · rw [if_pos hle] at h
        simp only [Option.some.injEq] at h
        subst h
        rcases List.mem_cons.mp hd with rfl | hd
        · exact le_refl _
        · exact (ih hrec d hd).trans hle
      · rw [if_neg hle] at h
        simp only [Option.some.injEq] at h
        subst h
        rcases List.mem_cons.mp hd with rfl | hd
        · exact le_of_not_le hle
        · exact ih hrec d hd

theorem solveILP_none {cands : List (Finset String)} {feas : Finset String → Bool}
    {f : Finset String → Int} (h : solveILP cands feas f = none) :
    ∀ c ∈ cands, feas c ≠ true := by
  intro c hc hfeas
  unfold solveILP at h
  rw [pickMax_eq_none] at h
  have : c ∈ cands.filter feas := List.mem_filter.mpr ⟨hc, hfeas⟩
  rw [h] at this
  exact absurd this (List.not_mem_nil c)

theorem solveILP_some {cands : List (Finset String)} {feas : Finset String → Bool}
    {f : Finset String → Int} {c : Finset String} (h : solveILP cands feas f = some c) :
    c ∈ cands ∧ feas c = true ∧ ∀ d ∈ cands, feas d = true → f d ≤ f c := by
  unfold solveILP at h
  have hmem := pickMax_mem h
  rw [List.mem_filter] at hmem
  refine ⟨hmem.1, hmem.2, ?_⟩
  intro d hd hfd
  exact pickMax_le h d (List.mem_filter.mpr ⟨hd, hfd⟩)

theorem mem_allSubsets : ∀ {l : List String} {m : Finset String},
    m ∈ allSubsets l ↔ m ⊆ l.toFinset := by
  intro l
  induction l with
  | nil =>
    intro m
    simp only [allSubsets, List.mem_singleton, List.toFinset_nil, Finset.subset_empty]
  | cons p ps ih =>
    intro m
    simp only [allSubsets, List.mem_append, List.mem_map, List.toFinset_cons]
    constructor
    · rintro (hm | ⟨m', hm', rfl⟩)
      · exact (ih.mp hm).trans (Finset.subset_insert _ _)
      · exact Finset.insert_subset_insert _ (ih.mp hm')
    · intro hm
      by_cases hp : p ∈ m
      · right
        refine ⟨m.erase p, ih.mpr ?_, Finset.insert_erase hp⟩
        intro x hx
        rcases Finset.mem_erase.mp hx with ⟨hxp, hxm⟩
        rcases Finset.mem_insert.mp (hm hxm) with h | h
        · exact absurd h hxp
        · exact h
      · left
        apply ih.mpr
        intro x hx
        rcases Finset.mem_insert.mp (hm hx) with h | h
        · subst h
          exact absurd hx hp
        · exact h

/-! ### The deadlock refinement loop -/

theorem deadFeas_iff {net : PetriNet} {exc : List (Finset String)} {m : Finset String} :
    deadFeas net exc m = true ↔
      ((∀ t ∈ net.transIds, presetL net t = [] ∨ disableOk net t m) ∧
        ∀ a ∈ exc, cutOk (vars net) a m) := by
  unfold deadFeas
  simp [List.all_eq_true]

theorem optFeas_iff {net : PetriNet} {exc : List (Finset String)} {m : Finset String} :
    optFeas net exc m = true ↔ ∀ a ∈ exc, cutOk (vars net) a m := by
  unfold optFeas
  simp [List.all_eq_true]

theorem findDeadlockAux_some {net : PetriNet} {R : Finset (Finset String)} :
    ∀ {fuel : Nat} {exc : List (Finset String)} {c : Finset String},
      findDeadlockAux net R fuel exc = some (some c) →
      c ∈ R ∧ (∀ t ∈ net.transIds, presetL net t = [] ∨ disableOk net t c) ∧
        c ⊆ (vars net).toFinset := by
  intro fuel
  induction fuel with
  | zero =>
    intro exc c h
    simp [findDeadlockAux] at h
  | succ fuel ih =>
    intro exc c h
    cases hs : solveILP (allSubsets (vars net)) (deadFeas net exc)
        (fun m => indSum net.placeIds m) with
    | none =>
      simp only [findDeadlockAux, hs] at h
      cases h
    | some c' =>
      simp only [findDeadlockAux, hs] at h
      by_cases hr : c' ∈ R
      · rw [if_pos hr] at h
        obtain ⟨hmem, hfeas, -⟩ := solveILP_some hs
        have hcc : c' = c := by
          injection h with h2
          injection h2
        subst hcc
        exact ⟨hr, (deadFeas_iff.mp hfeas).1, mem_allSubsets.mp hmem⟩
      · rw [if_neg hr] at h
        exact ih h

theorem findDeadlockAux_infeasible {net : PetriNet} {R : Finset (Finset String)}
    (hnd : (vars net).Nodup) (hRsub : ∀ m ∈ R, m ⊆ (vars net).toFinset) :
    ∀ {fuel : Nat} {exc : List (Finset String)},
      (∀ a ∈ exc, a ∉ R ∧ a ⊆ (vars net).toFinset) →
      findDeadlockAux net R fuel exc = some none →
      ¬ ∃ m ∈ R, ∀ t ∈ net.transIds, ¬ presetF net t ⊆ m := by
  intro fuel
  induction fuel with
  | zero =>
    intro exc hinv h
    simp [findDeadlockAux] at h
  | succ fuel ih =>
    intro exc hinv h
    cases hs : solveILP (allSubsets (vars net)) (deadFeas net exc)
        (fun m => indSum net.placeIds m) with
    | none =>
      rintro ⟨m, hm, hdead⟩
      have hmv : m ⊆ (vars net).toFinset := hRsub m hm
      have hfeas : deadFeas net exc m = true := by
        rw [deadFeas_iff]
        constructor
        · intro t ht
          by_cases hp : presetL net t = []
          · exact Or.inl hp
          · exact Or.inr ((disableOk_iff net t m).mpr (hdead t ht))
        · intro a ha
          rcases hinv a ha with ⟨hanr, hasub⟩
          exact (cutOk_iff hnd hasub hmv).mpr (fun hc => hanr (hc ▸ hm))
      exact solveILP_none hs m (mem_allSubsets.mpr hmv) hfeas
    | some c' =>
      simp only [findDeadlockAux, hs] at h
      by_cases hr : c' ∈ R
      · rw [if_pos hr] at h
        simp at h
      · rw [if_neg hr] at h
        apply ih ?_ h
        intro a ha
        rcases List.mem_append.mp ha with ha | ha
        · exact hinv a ha
        · have : a = c' := by simpa using ha
          subst this
          exact ⟨hr, mem_allSubsets.mp (solveILP_some hs).1⟩

/-- What `find_deadlock` guarantees when it reports a deadlock: the marking is
reachable, and every transition whose preset is non-empty is disabled at it. -/
theorem findDeadlock_some_correct {net : PetriNet} (h : ValidNet net)
    {c : Finset String} (hrun : findDeadlock net = some (some c)) :
    Reaches net c ∧ ∀ t ∈ net.transIds, presetL net t ≠ [] → ¬ presetF net t ⊆ c := by
  obtain ⟨hp, ht, hnd, -, -, -⟩ := validNet_parts h
  rcases computeReachable_closure hp ht hnd with ⟨R, k, hok, hR0, hRsp, hRcl, hRre⟩
  unfold findDeadlock at hrun
  rw [hok] at hrun
  dsimp only at hrun
  obtain ⟨hcR, hstruct, -⟩ := findDeadlockAux_some hrun
  refine ⟨hRre c hcR, ?_⟩
  intro t htt hne
  rcases hstruct t htt with hcase | hcase
  · exact absurd hcase hne
  · exact (disableOk_iff net t c).mp hcase

/-- What `find_deadlock` guarantees when the program reports infeasibility:
no reachable marking disables every transition. -/
theorem findDeadlock_none_correct {net : PetriNet} (h : ValidNet net)
    (hrun : findDeadlock net = some none) :
    ¬ ∃ m, Reaches net m ∧ ∀ t ∈ net.transIds, ¬ presetF net t ⊆ m := by
  obtain ⟨hp, ht, hnd, -, -, -⟩ := validNet_parts h
  rcases computeReachable_closure hp ht hnd with ⟨R, k, hok, hR0, hRsp, hRcl, hRre⟩
  unfold findDeadlock at hrun
  rw [hok] at hrun
  dsimp only at hrun
  have hvnd : (vars net).Nodup := vars_nodup hnd
  have hRsub : ∀ m ∈ R, m ⊆ (vars net).toFinset := by
    intro m hm
    rw [vars_toFinset]
    have := hRsp hm
    simpa [markingSpace] using this
  have hinf := findDeadlockAux_infeasible hvnd hRsub (by simp) hrun
  rintro ⟨m, hre, hdead⟩
  exact hinf ⟨m, mem_of_reaches hR0 hRcl m hre, hdead⟩

/-! ### The optimization refinement loop -/

theorem optFeas_weaken {net : PetriNet} {exc : List (Finset String)}
    {c m : Finset String} (h : optFeas net (exc ++ [c]) m = true) :
    optFeas net exc m = true := by
  rw [optFeas_iff] at h ⊢
  intro a ha
  exact h a (List.mem_append_left _ ha)

theorem optimizeAux_some_correct {net : PetriNet} {R : Finset (Finset String)}
    {weights : List (String × Int)} (hnd : (vars net).Nodup)
    (hRsub : ∀ m ∈ R, m ⊆ (vars net).toFinset) :
    ∀ {fuel : Nat} {exc : List (Finset String)} {tr : List (Finset String × Int)}
      {c : Finset String},
      (∀ a ∈ exc, a ∉ R ∧ a ⊆ (vars net).toFinset) →
      optimizeAux net R weights fuel exc = some (tr, some c) →
      c ∈ R ∧ ∀ m ∈ R, objW net weights m ≤ objW net weights c := by
  intro fuel
  induction fuel with
  | zero =>
    intro exc tr c hinv h
    simp [optimizeAux] at h
  | succ fuel ih =>
    intro exc tr c hinv h
    cases hs : solveILP (allSubsets (vars net)) (optFeas net exc) (objW net weights) with
    | none =>
      simp only [optimizeAux, hs] at h
      obtain ⟨-, h2⟩ := Prod.mk.injEq .. ▸ (Option.some.injEq .. ▸ h)
      exact absurd h2.symm (by simp)
    | some c' =>
      simp only [optimizeAux, hs] at h
      by_cases hr : c' ∈ R
      · rw [if_pos hr] at h
        have hcc : c' = c := by
          injection h with h2
          have := congrArg Prod.snd h2
          simpa using this
        subst hcc
        refine ⟨hr, ?_⟩
        intro m hm
        have hmv : m ⊆ (vars net).toFinset := hRsub m hm
        have hfeas : optFeas net exc m = true := by
          rw [optFeas_iff]
          intro a ha
          rcases hinv a ha with ⟨hanr, hasub⟩
          exact (cutOk_iff hnd hasub hmv).mpr (fun hc => hanr (hc ▸ hm))
        exact (solveILP_some hs).2.2 m (mem_allSubsets.mpr hmv) hfeas
      · rw [if_neg hr] at h
        cases hrec : optimizeAux net R weights fuel (exc ++ [c']) with
        | none =>
          rw [hrec] at h
          cases h
        | some pr =>
          rw [hrec] at h
          have hres : pr.2 = some c := by
            injection h with h2
            have := congrArg Prod.snd h2
            simpa using this
          have hpr : optimizeAux net R weights fuel (exc ++ [c']) = some (pr.1, some c) := by
            rw [hrec, ← hres]
          apply ih ?_ hpr
          intro a ha
          rcases List.mem_append.mp ha with ha | ha
          · exact hinv a ha
          · have : a = c' := by simpa using ha
            subst this
            exact ⟨hr, mem_allSubsets.mp (solveILP_some hs).1⟩

theorem optimizeAux_head {net : PetriNet} {R : Finset (Finset String)}
    {weights : List (String × Int)} {fuel : Nat} {exc : List (Finset String)}
    {x : Finset String × Int} {tr : List (Finset String × Int)}
    {res : Option (Finset String)}
    (h : optimizeAux net R weights (fuel + 1) exc = some (x :: tr, res)) :
    solveILP (allSubsets (vars net)) (optFeas net exc) (objW net weights) = some x.1 ∧
      x.2 = objW net weights x.1 := by
  cases hs : solveILP (allSubsets (vars net)) (optFeas net exc) (objW net weights) with
  | none =>
    simp only [optimizeAux, hs] at h
    injection h with h2
    have := congrArg Prod.fst h2
    simp at this
  | some c' =>
    simp only [optimizeAux, hs] at h
    by_cases hr : c' ∈ R
    · rw [if_pos hr] at h
      injection h with h2
      have := congrArg Prod.fst h2
      simp only [List.cons.injEq] at this
      obtain ⟨hx, -⟩ := this
      subst hx
      exact ⟨rfl, rfl⟩
    · rw [if_neg hr] at h
      cases hrec : optimizeAux net R weights fuel (exc ++ [c']) with
      | none =>
        rw [hrec] at h
        cases h
      | some pr =>
        rw [hrec] at h
        injection h with h2
        have := congrArg Prod.fst h2
        simp only [List.cons.injEq] at this
        obtain ⟨hx, -⟩ := this
        subst hx
        exact ⟨rfl, rfl⟩

theorem optimizeAux_chain {net : PetriNet} {R : Finset (Finset String)}
    {weights : List (String × Int)} :
    ∀ {fuel : Nat} {exc : List (Finset String)} {tr : List (Finset String × Int)}
      {res : Option (Finset String)},
      optimizeAux net R weights fuel exc = some (tr, res) →
      List.Chain' (fun x y => y.2 ≤ x.2) tr := by
  intro fuel
  induction fuel with
  | zero =>
    intro exc tr res h
    simp [optimizeAux] at h
  | succ fuel ih =>
    intro exc tr res h
    cases hs : solveILP (allSubsets (vars net)) (optFeas net exc) (objW net weights) with
    | none =>
      simp only [optimizeAux, hs] at h
      injection h with h2
      have := congrArg Prod.fst h2
      simp only at this
      rw [← this]
      exact List.chain'_nil
    | some c' =>
      simp only [optimizeAux, hs] at h
      by_cases hr : c' ∈ R
      · rw [if_pos hr] at h
        injection h with h2
        have := congrArg Prod.fst h2
        simp only at this
        rw [← this]
        exact List.chain'_singleton _
      · rw [if_neg hr] at h
        cases hrec : optimizeAux net R weights fuel (exc ++ [c']) with
        | none =>
          rw [hrec] at h
          cases h
        | some pr =>
          rw [hrec] at h
          injection h with h2
          have htr := congrArg Prod.fst h2
          simp only at htr
          rw [← htr]
          have hch : List.Chain' (fun x y => y.2 ≤ x.2) pr.1 := by
            have hpr2 : optimizeAux net R weights fuel (exc ++ [c']) =
                some (pr.1, pr.2) := by
              rw [hrec]
            exact ih hpr2
          cases hpr1 : pr.1 with
          | nil => simp
          | cons y ys =>
            rw [hpr1] at hch
            rw [List.chain'_cons]
            refine ⟨?_, hch⟩
            cases fuel with
            | zero => simp [optimizeAux] at hrec
            | succ fuel' =>
              have hpr' : optimizeAux net R weights (fuel' + 1) (exc ++ [c']) =
                  some (y :: ys, pr.2) := by
                rw [hrec, ← hpr1]
              obtain ⟨hsolve2, hy2⟩ := optimizeAux_head hpr'
              obtain ⟨hymem, hyfeas, -⟩ := solveILP_some hsolve2
              have hle : objW net weights y.1 ≤ objW net weights c' :=
                (solveILP_some hs).2.2 y.1 hymem (optFeas_weaken hyfeas)
              rw [hy2]
              exact hle

/-- What `optimize_marking` guarantees when it returns a marking: the marking
is reachable and its objective value dominates every reachable marking, and the
trace of candidate objective values never increases. -/
theorem optimize_correct {net : PetriNet} {weights : List (String × Int)}
    (h : ValidNet net) {tr : List (Finset String × Int)} {c : Finset String}
    (hrun : optimizeMarking net weights = some (tr, some c)) :
    Reaches net c ∧ (∀ m, Reaches net m → objW net weights m ≤ objW net weights c) ∧
      List.Chain' (fun x y => y.2 ≤ x.2) tr := by
  obtain ⟨hp, ht, hnd, -, -, -⟩ := validNet_parts h
  rcases computeReachable_closure hp ht hnd with ⟨R, k, hok, hR0, hRsp, hRcl, hRre⟩
  unfold optimizeMarking at hrun
  rw [hok] at hrun
  dsimp only at hrun
  have hvnd : (vars net).Nodup := vars_nodup hnd
  have hRsub : ∀ m ∈ R, m ⊆ (vars net).toFinset := by
    intro m hm
    rw [vars_toFinset]
    have := hRsp hm
    simpa [markingSpace] using this
  obtain ⟨hcR, hopt⟩ := optimizeAux_some_correct hvnd hRsub (by simp) hrun
  refine ⟨hRre c hcR, ?_, optimizeAux_chain hrun⟩
  intro m hre
  exact hopt m (mem_of_reaches hR0 hRcl m hre)

/-! ### The parser -/

theorem parseElems_ok : ∀ {elems : List PElem} {ps : List Place}
    {ts : List Transition} {ars : List Arc} {net : PetriNet},
    parseElems elems ps ts ars = .ok net → netValidate net = [] := by
  intro elems
  induction elems with
  | nil =>
    intro ps ts ars net h
    unfold parseElems at h
    by_cases hv : netValidate ⟨ps, ts, ars⟩ = []
    · rw [if_pos hv] at h
      injection h with h2
      rw [← h2]
      exact hv
    · rw [if_neg hv] at h
      cases h
  | cons e rest ih =>
    intro ps ts ars net h
    cases e with
    | place pid pnm pmk =>
      rcases pid with _ | i
      · simp [parseElems] at h
      · simp only [parseElems] at h
        by_cases hdup : i ∈ ps.map Place.id
        · rw [if_pos hdup] at h
          cases h
        · rw [if_neg hdup] at h
          rcases pmk with _ | mk
          · exact ih h
          · rcases mk with _ | k
            · cases h
            · exact ih h
    | transition tid tnm =>
      rcases tid with _ | i
      · simp [parseElems] at h
      · simp only [parseElems] at h
        by_cases hdup : i ∈ ts.map Transition.id
        · rw [if_pos hdup] at h
          cases h
        · rw [if_neg hdup] at h
          exact ih h
    | arc aid src tgt =>
      rcases aid with _ | i
      · simp [parseElems] at h
      · rcases src with _ | s
        · simp [parseElems] at h
        · rcases tgt with _ | t
          · simp [parseElems] at h
          · simp only [parseElems] at h
            exact ih h

theorem nodeType_eq_some_true {net : PetriNet} {v : String}
    (h : nodeType net v = some true) : v ∈ net.transIds := by
  unfold nodeType at h
  split_ifs at h with h1 h2 <;> simp_all

theorem nodeType_eq_some_false {net : PetriNet} {v : String}
    (h : nodeType net v = some false) : v ∉ net.transIds ∧ v ∈ net.placeIds := by
  unfold nodeType at h
  split_ifs at h with h1 h2 <;> simp_all

/-- The structural invariants of any net that survives `parse_pnml`. -/
theorem parse_invariants {elems : List PElem} {net : PetriNet}
    (h : parsePnml elems = .ok net) :
    net.placeIds.Nodup ∧ net.transIds.Nodup ∧
      (∀ t ∈ net.transIds, t ∉ net.placeIds) ∧
      ∀ a ∈ net.arcs,
        (a.source ∈ net.placeIds ∧ a.source ∉ net.transIds ∧ a.target ∈ net.transIds) ∨
        (a.source ∈ net.transIds ∧ a.target ∈ net.placeIds ∧ a.target ∉ net.transIds) := by
  have hv : ValidNet net := parseElems_ok h
  obtain ⟨-, -, hnd, htnd, hdisj, harcs⟩ := validNet_parts hv
  refine ⟨hnd, htnd, hdisj, ?_⟩
  intro a ha
  rcases arcErrs_eq_nil (harcs a ha) with ⟨s, t, hs, ht2, hne⟩
  cases s
  · cases t
    · exact absurd rfl hne
    · obtain ⟨hs1, hs2⟩ := nodeType_eq_some_false hs
      exact Or.inl ⟨hs2, hs1, nodeType_eq_some_true ht2⟩
  · cases t
    · obtain ⟨ht1, ht3⟩ := nodeType_eq_some_false ht2
      exact Or.inr ⟨nodeType_eq_some_true hs, ht3, ht1⟩
    · exact absurd rfl hne

/-! ### Refinement comparison: the transition relation worded by the spec -/

/-- The transition relation exactly as §4.2 of the specification words it:
enabling condition over the preset, and per place the frame rule
`consumed-only ↦ false`, `produced or passed-through ↦ true`,
`untouched ↦ unchanged`.  This definition follows the specification text and is
compared against the formula the code builds. -/
def transSpecRel (net : PetriNet) (m mn : Finset String) : Prop :=
  ∃ t ∈ net.transIds, presetF net t ⊆ m ∧
    ∀ p ∈ net.placeIds,
      (p ∈ mn ↔ (if p ∈ presetF net t ∧ p ∉ postsetF net t then False
                 else if p ∈ postsetF net t then True
                 else p ∈ m))

theorem transSem_iff_specRel {net : PetriNet} {t : String} {m mn : Finset String} :
    transSem net t m mn ↔ (presetF net t ⊆ m ∧
      ∀ p ∈ net.placeIds,
        (p ∈ mn ↔ (if p ∈ presetF net t ∧ p ∉ postsetF net t then False
                   else if p ∈ postsetF net t then True
                   else p ∈ m))) := by
  unfold transSem
  have hpre : (∀ p ∈ presetL net t, p ∈ m) ↔ presetF net t ⊆ m := by
    constructor
    · intro hall p hp
      exact hall p (List.mem_toFinset.mp hp)
    · intro hsub p hp
      exact hsub (List.mem_toFinset.mpr hp)
  rw [hpre]
  refine and_congr_right fun hsub => ?_
  constructor
  · intro hall p hp
    have hv := hall p (mem_vars.mpr hp)
    by_cases hpr : p ∈ presetF net t <;> by_cases hpo : p ∈ postsetF net t <;>
      simp [hpr, hpo] at hv ⊢ <;> tauto
  · intro hall p hp
    have hv := hall p (mem_vars.mp hp)
    by_cases hpr : p ∈ presetF net t <;> by_cases hpo : p ∈ postsetF net t <;>
      simp [hpr, hpo] at hv ⊢ <;> tauto

theorem buildTransExpr_matches_spec {net : PetriNet} {T : BExpr}
    (h : buildTransExpr net = some T) (m mn : Finset String) :
    (evalB (assignPair m mn) T = true ↔ transSpecRel net m mn) := by
  rw [buildTransExpr_eval h]
  unfold transSpecRel
  constructor
  · rintro ⟨t, ht, hsem⟩
    exact ⟨t, ht, transSem_iff_specRel.mp hsem⟩
  · rintro ⟨t, ht, hspec⟩
    exact ⟨t, ht, transSem_iff_specRel.mpr hspec⟩

theorem allSubsets_nodup : ∀ {l : List String}, l.Nodup → (allSubsets l).Nodup := by
  intro l
  induction l with
  | nil =>
    intro h
    simp [allSubsets]
  | cons p ps ih =>
    intro h
    rcases List.nodup_cons.mp h with ⟨hp, hps⟩
    simp only [allSubsets]
    refine List.Nodup.append (ih hps) ?_ ?_
    · refine List.Nodup.map_on ?_ (ih hps)
      intro x hx y hy hxy
      have hpx : p ∉ x := fun hc =>
        hp (List.mem_toFinset.mp (mem_allSubsets.mp hx hc))
      have hpy : p ∉ y := fun hc =>
        hp (List.mem_toFinset.mp (mem_allSubsets.mp hy hc))
      calc x = (insert p x).erase p := (Finset.erase_insert hpx).symm
        _ = (insert p y).erase p := by rw [hxy]
        _ = y := Finset.erase_insert hpy
    · intro x hx hx2
      rcases List.mem_map.mp hx2 with ⟨y, hy, hxy⟩
      have hpx : p ∉ x := fun hc =>
        hp (List.mem_toFinset.mp (mem_allSubsets.mp hx hc))
      apply hpx
      rw [← hxy]
      exact Finset.mem_insert_self _ _

theorem filter_ne_length {a : Finset String} :
    ∀ (l : List (Finset String)), l.Nodup → a ∈ l →
      (l.filter (fun m => decide (m ≠ a))).length = l.length - 1 := by
  intro l
  induction l with
  | nil =>
    intro h hmem
    exact absurd hmem (List.not_mem_nil a)
  | cons x xs ihl =>
    intro hnd2 hmem2
    rcases List.nodup_cons.mp hnd2 with ⟨hxnot, hxs⟩
    rcases List.mem_cons.mp hmem2 with rfl | hmem2
    · have hkeep : xs.filter (fun m => decide (m ≠ a)) = xs := by
        apply List.filter_eq_self.mpr
        intro m hm
        simp only [decide_eq_true_eq]
        exact fun hc => hxnot (hc ▸ hm)
      simp only [List.filter_cons, ne_eq, not_true_eq_false, hkeep, List.length_cons]
      simp
    · have hxa : x ≠ a := fun hc => hxnot (hc ▸ hmem2)
      have hlen := List.length_pos.mpr (List.ne_nil_of_mem hmem2)
      have hstep : (x :: xs).filter (fun m => decide (m ≠ a)) =
          x :: xs.filter (fun m => decide (m ≠ a)) := by
        simp [List.filter_cons, hxa]
      rw [hstep]
      simp only [List.length_cons, ihl hxs hmem2]
      omega

/-- Adding the no-good cut for a feasible assignment `a` removes exactly one
point from the feasible enumeration. -/
theorem cut_filter_length {varsL : List String} (hnd : varsL.Nodup) {a : Finset String}
    (ha : a ⊆ varsL.toFinset) (feas : Finset String → Bool) (hfa : feas a = true) :
    ((allSubsets varsL).filter (fun m => feas m && decide (cutOk varsL a m))).length =
      ((allSubsets varsL).filter feas).length - 1 := by
  have hals := allSubsets_nodup hnd
  have hmemf : a ∈ (allSubsets varsL).filter feas :=
    List.mem_filter.mpr ⟨mem_allSubsets.mpr ha, hfa⟩
  have hfilnd : ((allSubsets varsL).filter feas).Nodup := hals.filter _
  have h1 : (allSubsets varsL).filter (fun m => feas m && decide (cutOk varsL a m)) =
      ((allSubsets varsL).filter feas).filter (fun m => decide (cutOk varsL a m)) := by
    rw [List.filter_filter]
    apply List.filter_congr
    intro m hm
    rw [Bool.and_comm]
  have h2 : ((allSubsets varsL).filter feas).filter (fun m => decide (cutOk varsL a m)) =
      ((allSubsets varsL).filter feas).filter (fun m => decide (m ≠ a)) := by
    apply List.filter_congr
    intro m hm
    have hmsub : m ⊆ varsL.toFinset := mem_allSubsets.mp (List.mem_filter.mp hm).1
    simp [cutOk_iff hnd ha hmsub]
  rw [h1, h2, filter_ne_length _ hfilnd hmemf]

/-! ### Concrete nets and inputs used in witnesses and counterexamples -/

def sP0 : String := "p0"
def sP1 : String := "p1"
def sT0 : String := "t0"
def sA0 : String := "a0"
def sA1 : String := "a1"
def sP : String := "p"
def sQ : String := "q"
def sX : String := "x"
def sY : String := "y"
def sZ : String := "zzz"
def sW : String := "qqq"

/-- Scenario A / B net of the spec: places p0 (marked) and p1, one transition
t0 with preset p0 and postset p1. -/
def netA : PetriNet :=
  ⟨[⟨"p0", none, 1⟩, ⟨"p1", none, 0⟩], [⟨"t0", none⟩],
    [⟨"a0", "p0", "t0"⟩, ⟨"a1", "t0", "p1"⟩]⟩

/-- A valid net whose single transition has an empty preset, hence is enabled
at every marking. -/
def netE : PetriNet :=
  ⟨[⟨"p0", none, 1⟩], [⟨"t0", none⟩], [⟨"a0", "t0", "p0"⟩]⟩

/-- A valid net with two unmarked places and an isolated transition; the only
reachable marking is the empty one. -/
def netT : PetriNet :=
  ⟨[⟨"p0", none, 0⟩, ⟨"p1", none, 0⟩], [⟨"t0", none⟩], []⟩

/-- A valid net where firing t0 consumes the only token. -/
def netO : PetriNet :=
  ⟨[⟨"p0", none, 1⟩], [⟨"t0", none⟩], [⟨"a0", "p0", "t0"⟩]⟩

/-- Degenerate net: one place, no transitions. -/
def degNet : PetriNet := ⟨[⟨"p0", none, 1⟩], [], []⟩

def weightsB : List (String × Int) := [("p0", 1), ("p1", 5)]
def weightsT : List (String × Int) := [("p0", 1), ("p1", 1)]
def weightsO : List (String × Int) := [("p0", 1)]

/-- PNML element stream parsing to `netA`. -/
def elemsA : List PElem :=
  [PElem.place (some sP0) none (some (some 1)),
   PElem.place (some sP1) none none,
   PElem.transition (some sT0) none,
   PElem.arc (some sA0) (some sP0) (some sT0),
   PElem.arc (some sA1) (some sT0) (some sP1)]

/-- An input with a duplicate place id and, further on, a dangling arc. -/
def elemsDup : List PElem :=
  [PElem.place (some sP) none (some (some 1)),
   PElem.place (some sP) none none,
   PElem.arc (some sA0) (some sZ) (some sW)]

/-- The same input without the dangling arc. -/
def elemsDupOnly : List PElem :=
  [PElem.place (some sP) none (some (some 1)),
   PElem.place (some sP) none none]

/-- An input whose place carries a negative initial marking. -/
def elemsNeg : List PElem :=
  [PElem.place (some sP0) none (some (some (-1))),
   PElem.transition (some sT0) none,
   PElem.arc (some sA0) (some sP0) (some sT0)]

def netNeg : PetriNet :=
  ⟨[⟨"p0", none, -1⟩], [⟨"t0", none⟩], [⟨"a0", "p0", "t0"⟩]⟩

/-- A net with one dangling arc (both endpoints unknown) and one place-to-place
arc, yielding several validation errors at once. -/
def brokenNet : PetriNet :=
  ⟨[⟨"p0", none, 1⟩], [⟨"t0", none⟩], [⟨"a0", "x", "y"⟩, ⟨"a1", "p0", "p0"⟩]⟩

/-! ### The claims -/

/-- Claim C1: for every valid net, the number of satisfying assignments of the
symbolic reachable-set formula computed by the BDD fixed-point loop equals the
number of distinct markings found by the explicit breadth-first enumeration
from the same initial marking, where BFS fires `t` at `m` iff
`Preset(t) ⊆ m`, producing `(m \ Preset(t)) ∪ Postset(t)`. -/
theorem C1_count_matches_bfs (net : PetriNet) (h : ValidNet net) :
    ∃ R k V, computeReachable net = .ok (R, k) ∧ bfsRun net = some V ∧
      R = V ∧ countSat R = V.card :=
  counts_agree h

theorem C1_count_matches_bfs_witness :
    ValidNet netA ∧
      ∃ R k V, computeReachable netA = .ok (R, k) ∧ bfsRun netA = some V ∧
        R = V ∧ countSat R = V.card :=
  ⟨by decide, C1_count_matches_bfs netA (by decide)⟩

/-- Claim C2 counterexample: on the valid net `netE`, whose transition t0 has
an empty preset (always enabled), `find_deadlock` returns the marking `{p0}`
even though t0 is enabled there — so the returned marking is not structurally
dead and the claimed empty-preset guarantee fails on the code. -/
theorem C2_counterexample_empty_preset :
    ValidNet netE ∧ findDeadlock netE = some (some {"p0"}) ∧
      sT0 ∈ netE.transIds ∧ presetF netE sT0 ⊆ {"p0"} :=
  ⟨by decide, by decide, by decide, by decide⟩

/-- Claim C2 (amended): a marking returned by `find_deadlock` is reachable and
disables every transition with a non-empty preset (empty-preset transitions
are never constrained and can stay enabled); when the constraint system is
infeasible the loop reports `None`, and indeed no reachable marking disables
every transition of the net. -/
theorem C2_deadlock_amended (net : PetriNet) (h : ValidNet net) :
    (∀ c, findDeadlock net = some (some c) →
      Reaches net c ∧ ∀ t ∈ net.transIds, presetL net t ≠ [] → ¬ presetF net t ⊆ c) ∧
    (findDeadlock net = some none →
      ¬ ∃ m, Reaches net m ∧ ∀ t ∈ net.transIds, ¬ presetF net t ⊆ m) :=
  ⟨fun _ hc => findDeadlock_some_correct h hc,
   fun hn => findDeadlock_none_correct h hn⟩

theorem C2_deadlock_amended_witness :
    Reaches netA {"p1"} ∧
      ∀ t ∈ netA.transIds, presetL netA t ≠ [] → ¬ presetF netA t ⊆ {"p1"} :=
  (C2_deadlock_amended netA (by decide)).1 {"p1"} (by decide)

/-- Claim C3 counterexample: on the valid net `netT` with weights p0 ↦ 1,
p1 ↦ 5... here both weights 1: the refinement loop visits candidates with
objective values 2, 1, 1, 0 — two consecutive candidates share the value 1, so
the exploration is not in strictly decreasing objective order. -/
theorem C3_counterexample_ties :
    ValidNet netT ∧
      (optimizeMarking netT weightsT).map (fun pr => pr.1.map Prod.snd) =
        some [2, 1, 1, 0] ∧
      ¬ List.Chain' (fun x y => y < x) ([2, 1, 1, 0] : List Int) :=
  ⟨by decide, by decide, by
    intro hch
    rw [List.chain'_cons, List.chain'_cons, List.chain'_cons] at hch
    exact absurd hch.2.1 (by omega)⟩

/-- Claim C3 (amended): the objective values along the exploration are
non-increasing (strict decrease fails under ties), any marking returned by
`optimize_marking` is reachable and maximizes the weighted sum over all
reachable markings, and on scenario B the result is the marking `{p1}` with
objective value 5. -/
theorem C3_optimize_amended :
    (∀ (net : PetriNet) (weights : List (String × Int))
        (tr : List (Finset String × Int)) (c : Finset String), ValidNet net →
      optimizeMarking net weights = some (tr, some c) →
      Reaches net c ∧ (∀ m, Reaches net m → objW net weights m ≤ objW net weights c) ∧
        List.Chain' (fun x y => y.2 ≤ x.2) tr) ∧
    optimizeMarking netA weightsB =
      some ([({"p0", "p1"}, 6), ({"p1"}, 5)], some {"p1"}) ∧
    objW netA weightsB {"p1"} = 5 :=
  ⟨fun net weights tr c hv hrun => optimize_correct hv hrun, by decide, by decide⟩

theorem C3_optimize_amended_witness :
    Reaches netA {"p1"} ∧
      (∀ m, Reaches netA m → objW netA weightsB m ≤ objW netA weightsB {"p1"}) ∧
      List.Chain' (fun (x y : Finset String × Int) => y.2 ≤ x.2)
        [({"p0", "p1"}, 6), ({"p1"}, 5)] :=
  (C3_optimize_amended).1 netA weightsB [({"p0", "p1"}, 6), ({"p1"}, 5)] {"p1"}
    (by decide) (by decide)

/-- Claim C4: the transition-relation formula is the disjunction over all
transitions of the conjunction of the preset's current-state variables
(vacuously true for an empty preset) with, for every place, the next-state
constraint of the frame rule: consumed-only places become false, produced or
passed-through places become true, untouched places keep their value. -/
theorem C4_transition_relation (net : PetriNet) (T : BExpr)
    (h : buildTransExpr net = some T) (m mn : Finset String) :
    (evalB (assignPair m mn) T = true ↔ transSpecRel net m mn) :=
  buildTransExpr_matches_spec h m mn

theorem C4_transition_relation_witness :
    ∃ T, buildTransExpr netA = some T ∧
      ∀ m mn, (evalB (assignPair m mn) T = true ↔ transSpecRel netA m mn) := by
  have hs : (buildTransExpr netA).isSome = true := by decide
  rcases Option.isSome_iff_exists.mp hs with ⟨T, hT⟩
  exact ⟨T, hT, fun m mn => C4_transition_relation netA T hT m mn⟩

/-- Claim C5: in the fixed-point loop every iterate contains the previous one,
and for every valid net the loop reaches a fixed point and terminates after at
most `2 ^ |places|` iterations. -/
theorem C5_monotone_and_bounded (net : PetriNet) (h : ValidNet net) :
    ∃ tE, buildTransExpr net = some tE ∧
      (∀ (S : Finset (Finset String)) (i : Nat),
        (fun X => X ∪ bddImage net tE X)^[i] S ⊆
          (fun X => X ∪ bddImage net tE X)^[i + 1] S) ∧
      ∃ R k, computeReachable net = .ok (R, k) ∧ k ≤ 2 ^ net.placeIds.length ∧
        R ∪ bddImage net tE R = R := by
  obtain ⟨hp, ht, -, -, -, -⟩ := validNet_parts h
  rcases computeReachable_ok hp ht with ⟨tE, R, k, htE, hok, -, hkb, -, hfix⟩
  exact ⟨tE, htE, fun S i => iterate_mono_step S i, R, k, hok, hkb, hfix⟩

theorem C5_monotone_and_bounded_witness :
    ∃ tE, buildTransExpr netA = some tE ∧
      (∀ (S : Finset (Finset String)) (i : Nat),
        (fun X => X ∪ bddImage netA tE X)^[i] S ⊆
          (fun X => X ∪ bddImage netA tE X)^[i + 1] S) ∧
      ∃ R k, computeReachable netA = .ok (R, k) ∧ k ≤ 2 ^ netA.placeIds.length ∧
        R ∪ bddImage netA tE R = R :=
  C5_monotone_and_bounded netA (by decide)

/-- Claim C6: over the place-variable set, the no-good cut built from
assignment `a` is violated by `a` itself and satisfied by every other binary
assignment; consequently no later solve can return `a`, and the feasible
enumeration shrinks by exactly one point. -/
theorem C6_cut_excludes_one (varsL : List String) (a : Finset String)
    (hnd : varsL.Nodup) (ha : a ⊆ varsL.toFinset) :
    (¬ cutOk varsL a a) ∧
    (∀ m, m ⊆ varsL.toFinset → (cutOk varsL a m ↔ m ≠ a)) ∧
    (∀ (cands : List (Finset String)) (feas : Finset String → Bool)
        (f : Finset String → Int),
      solveILP cands (fun m => feas m && decide (cutOk varsL a m)) f ≠ some a) ∧
    (∀ feas : Finset String → Bool, feas a = true →
      ((allSubsets varsL).filter
          (fun m => feas m && decide (cutOk varsL a m))).length =
        ((allSubsets varsL).filter feas).length - 1) := by
  have hself : ¬ cutOk varsL a a := by
    rw [cutOk_iff hnd ha ha]
    simp
  refine ⟨hself, fun m hm => cutOk_iff hnd ha hm, ?_, ?_⟩
  · intro cands feas f hc
    obtain ⟨-, hfeas, -⟩ := solveILP_some hc
    rw [Bool.and_eq_true, decide_eq_true_eq] at hfeas
    exact hself hfeas.2
  · intro feas hfa
    exact cut_filter_length hnd ha feas hfa

theorem C6_cut_excludes_one_witness :
    (¬ cutOk [sP0, sP1] {"p0"} {"p0"}) ∧
    (∀ m, m ⊆ [sP0, sP1].toFinset → (cutOk [sP0, sP1] {"p0"} m ↔ m ≠ {"p0"})) ∧
    (∀ (cands : List (Finset String)) (feas : Finset String → Bool)
        (f : Finset String → Int),
      solveILP cands (fun m => feas m && decide (cutOk [sP0, sP1] {"p0"} m)) f ≠
        some {"p0"}) ∧
    (∀ feas : Finset String → Bool, feas {"p0"} = true →
      ((allSubsets [sP0, sP1]).filter
          (fun m => feas m && decide (cutOk [sP0, sP1] {"p0"} m))).length =
        ((allSubsets [sP0, sP1]).filter feas).length - 1) :=
  C6_cut_excludes_one [sP0, sP1] {"p0"} (by decide) (by decide)

/-- Claim C7 counterexample: on a degenerate net with a place but no
transitions, `compute_reachable` does not return a trivial formula — the empty
transition-relation expression makes the expression parser fail.  Validation
would have rejected this net. -/
theorem C7_counterexample_degenerate :
    computeReachable degNet = .error SymErr.emptyExpr ∧
      netValidate degNet = [ValErr.noTransitions] :=
  ⟨by decide, by decide⟩

/-- Claim C7 (amended): the symbolic engine never fails on a net that passed
validation, and `compute_reachable` succeeds exactly when the net has at least
one place and one transition; degenerate nets make it fail at expression
construction instead of returning a trivial formula, and are rejected by
validation before the engine sees them. -/
theorem C7_engine_failure_amended (net : PetriNet) :
    (ValidNet net → ∃ out, computeReachable net = .ok out) ∧
    ((∃ out, computeReachable net = .ok out) ↔
      (net.placeIds ≠ [] ∧ net.transIds ≠ [])) := by
  have hiff : (∃ out, computeReachable net = .ok out) ↔
      (net.placeIds ≠ [] ∧ net.transIds ≠ []) := by
    constructor
    · rintro ⟨out, hout⟩
      constructor
      · intro hc
        have hI : buildInitExpr net = none := by
          unfold buildInitExpr
          have hparts : initParts net = [] := by
            unfold initParts
            rw [vars_eq_nil_iff.mpr hc]
            rfl
          rw [hparts]
          rfl
        unfold computeReachable at hout
        rw [hI] at hout
        cases hout
      · intro hc
        have hT : buildTransExpr net = none := by
          unfold buildTransExpr
          rw [hc]
          rfl
        unfold computeReachable at hout
        cases hI : buildInitExpr net with
        | none =>
          rw [hI] at hout
          cases hout
        | some e0 =>
          rw [hI] at hout
          dsimp only at hout
          rw [hT] at hout
          cases hout
    · rintro ⟨hp, ht⟩
      rcases computeReachable_ok hp ht with ⟨tE, R, k, -, hok, -⟩
      exact ⟨_, hok⟩
  refine ⟨?_, hiff⟩
  intro hv
  obtain ⟨hp, ht, -, -, -, -⟩ := validNet_parts hv
  exact hiff.mpr ⟨hp, ht⟩

theorem C7_engine_failure_amended_witness :
    ∃ out, computeReachable netA = .ok out :=
  (C7_engine_failure_amended netA).1 (by decide)

/-- Claim C8 counterexample: an input with a duplicate place id and a dangling
arc is rejected with only the duplicate-id error, identical to the report for
the input without the dangling arc — duplicate ids (and likewise non-integer
markings) raise fail-fast during parsing instead of being aggregated. -/
theorem C8_counterexample_failfast :
    parsePnml elemsDup = .error (ParseErr.duplicatePlaceId sP) ∧
      parsePnml elemsDupOnly = .error (ParseErr.duplicatePlaceId sP) :=
  ⟨by decide, by decide⟩

/-- Claim C8 (amended): the errors found by `PetriNet.validate` (empty nets,
place/transition id clashes, dangling arc endpoints, same-type arcs) are
aggregated into one report, and every net the parser returns has passed that
validation; but missing ids, duplicate ids within the place (or transition)
elements and non-integer markings abort parsing at the first violation. -/
theorem C8_validation_amended :
    (∀ (elems : List PElem) (net : PetriNet), parsePnml elems = .ok net →
      netValidate net = []) ∧
    netValidate brokenNet =
      [ValErr.danglingSource sA0 sX, ValErr.danglingTarget sA0 sY,
        ValErr.sameTypeArc sA1] :=
  ⟨fun elems net h => parseElems_ok h, by decide⟩

theorem C8_validation_amended_witness :
    netValidate netA = [] :=
  C8_validation_amended.1 elemsA netA (by decide)

/-- Claim C9 counterexample: with an empty weight mapping the objective built
by `optimize_marking` is constant zero, not the unweighted sum — the run on
`netO` returns the empty marking although the reachable marking `{p0}` (the
result under an explicit unit weight) has a strictly larger token sum. -/
theorem C9_counterexample_empty_weights :
    optimizeMarking netO [] = some ([(∅, 0)], some ∅) ∧
      optimizeMarking netO weightsO = some ([({"p0"}, 1)], some {"p0"}) ∧
      indSum netO.placeIds ∅ < indSum netO.placeIds {"p0"} :=
  ⟨by decide, by decide, by decide⟩

/-- Claim C9 (amended): a weight entry whose key is not a place id of the net
contributes nothing to the objective, and every unlisted place has weight 0 —
in particular the empty mapping yields the constant-zero objective (pure
feasibility), not an unweighted maximize-sum fallback. -/
theorem C9_weights_amended :
    (∀ (net : PetriNet) (weights : List (String × Int)) (p : String) (w : Int)
        (m : Finset String), p ∉ net.placeIds →
      objW net ((p, w) :: weights) m = objW net weights m) ∧
    (∀ (net : PetriNet) (m : Finset String), objW net [] m = 0) := by
  constructor
  · intro net weights p w m hp
    unfold objW
    congr 1
    apply List.map_congr_left
    intro q hq
    have hqp : q ≠ p := fun hc => hp (hc ▸ hq)
    have hbeq : (q == p) = false := by simp [hqp]
    simp [List.lookup, hbeq]
  · intro net m
    unfold objW
    simp [List.lookup]

theorem C9_weights_amended_witness :
    objW netO [(sQ, 7)] {"p0"} = objW netO [] {"p0"} :=
  C9_weights_amended.1 netO [] sQ 7 {"p0"} (by decide)

/-- Claim C10 counterexample: the parser accepts a negative initial marking —
`parse_pnml` returns a net whose only place has initial marking −1, violating
the claimed `initial marking ≥ 0` invariant. -/
theorem C10_counterexample_negative_marking :
    parsePnml elemsNeg = .ok netNeg ∧
      netNeg.places.map Place.initial_marking = [-1] ∧ ¬ ((0 : Int) ≤ -1) :=
  ⟨by decide, by decide, by decide⟩

/-- Claim C10 (amended): every net returned by `parse_pnml` has unique place
ids, unique transition ids disjoint from the place ids, and every arc joins
one existing place and one existing transition; the initial marking, however,
may be any integer — negative values are accepted. -/
theorem C10_parse_invariants_amended (elems : List PElem) (net : PetriNet)
    (h : parsePnml elems = .ok net) :
    net.placeIds.Nodup ∧ net.transIds.Nodup ∧
      (∀ t ∈ net.transIds, t ∉ net.placeIds) ∧
      ∀ a ∈ net.arcs,
        (a.source ∈ net.placeIds ∧ a.source ∉ net.transIds ∧
          a.target ∈ net.transIds) ∨
        (a.source ∈ net.transIds ∧ a.target ∈ net.placeIds ∧
          a.target ∉ net.transIds) :=
  parse_invariants h

theorem C10_parse_invariants_amended_witness :
    netNeg.placeIds.Nodup ∧ netNeg.transIds.Nodup ∧
      (∀ t ∈ netNeg.transIds, t ∉ netNeg.placeIds) ∧
      ∀ a ∈ netNeg.arcs,
        (a.source ∈ netNeg.placeIds ∧ a.source ∉ netNeg.transIds ∧
          a.target ∈ netNeg.transIds) ∨
        (a.source ∈ netNeg.transIds ∧ a.target ∈ netNeg.placeIds ∧
          a.target ∉ netNeg.transIds) :=
  C10_parse_invariants_amended elemsNeg netNeg (by decide)

end PetriSpec
